import Mathlib

/-!
Verification of the VectorDB in-memory key/value server against its
natural-language specification.

The development shallowly embeds the data structures and operations of the
repository:

* `AVL`      — the balanced ordered index of `src/avl.hpp`
               (`AVLTree<K,V>`: `set`, `get`, `del`, `exists`, `insert`,
               `remove`, `fix`, `rotateLeft`, `rotateRight`, `fixLeft`,
               `fixRight`, `updateNode`), as a pure inductive tree carrying
               the stored `depth` and `weight` fields.
* `AVLP`     — the same tree code with the raw parent pointers of
               `AVLNode` made explicit (every node carries an allocation id
               and the id stored in its `parent` field), used to check the
               parent back-reference invariant.
* `HeapM`    — the TTL heap of `src/heap.hpp` (`BinaryHeap`, `HeapItem`
               with `position_ref_`) and the entry-manager paths of
               `src/entry_manager.hpp` (`add_to_heap`, `update_heap`,
               `remove_from_heap`, `set_entry_ttl`).
* `Wire`     — the request parser of `src/request_parser.hpp`
               (= the copy in `src/server.cpp`) and the
               `Connection::try_process_request` step of
               `src/include/connection.hpp`.
* `Cmd`      — the command dispatcher and handlers of
               `src/command_processor.hpp`, and the `handle_zquery` variant
               of `src/server.cpp`.
* `ZS`       — the sorted-set engine of `src/src/zset.hpp`
               (`add_internal`, `lookup`, `update_score`, `query`).

Machine integers are modelled as `Nat`/`Int`; bytes are `Nat` values < 256.
`double` scores appear in the claims only at finite values, where the
IEEE-754 comparisons used by the code coincide with the numeric order, so
scores are modelled as `Int` (the argument grammars `std::stod`/`std::stoll`
with the full-consumption check `pos == str.size()` are modelled on
sign-plus-digits decimal literals).  Response buffers are modelled at the
granularity of the serializer calls: each `ResponseSerializer::serialize_*`
call appends one typed token, mirroring the tag + payload encoding of
`common.hpp`.
-/

namespace AVL

/-- A node of `AVLNode<K,V>` (`src/avl.hpp`): key, value, the stored
`depth` and `weight` fields, and the two owned children.  The raw
`parent` pointer is a derived back-reference never read by the live code
paths (only written); it is modelled separately in `AVLP`. -/
inductive Tree (K V : Type) where
  | nil : Tree K V
  | node (l : Tree K V) (key : K) (val : V) (depth : Nat) (weight : Nat)
      (r : Tree K V) : Tree K V
deriving Repr, DecidableEq

variable {K V : Type}

/-- `AVLTree::getDepth`: stored depth, 0 for null. -/
def getDepth : Tree K V → Nat
  | .nil => 0
  | .node _ _ _ d _ _ => d

/-- `AVLTree::getWeight`: stored weight (subtree size), 0 for null. -/
def getWeight : Tree K V → Nat
  | .nil => 0
  | .node _ _ _ _ w _ => w

/-- `AVLTree::updateNode`: recompute the stored depth and weight of the
root from the stored values of its children. -/
def updateNode : Tree K V → Tree K V
  | .nil => .nil
  | .node l k v _ _ r =>
      .node l k v (1 + max (getDepth l) (getDepth r))
        (1 + getWeight l + getWeight r) r

/-- `AVLTree::rotateLeft`: left rotation; no-op when the node or its right
child is null.  Source order: hang `newRoot->left` under `node->right`,
hang `node` under `newRoot->left`, then `updateNode` on the old root and
the new root. -/
def rotateLeft : Tree K V → Tree K V
  | .node l k v d w (.node rl rk rv rd rw rr) =>
      updateNode (.node (updateNode (.node l k v d w rl)) rk rv rd rw rr)
  | t => t

/-- `AVLTree::rotateRight`: mirror image of `rotateLeft`. -/
def rotateRight : Tree K V → Tree K V
  | .node (.node ll lk lv ld lw lr) k v d w r =>
      updateNode (.node ll lk lv ld lw (updateNode (.node lr k v d w r)))
  | t => t

/-- `AVLTree::fixLeft`: when the left subtree is too deep, rotate the left
child left first if its right side is deeper, then rotate right. -/
def fixLeft : Tree K V → Tree K V
  | .node (.node ll lk lv ld lw lr) k v d w r =>
      let l := Tree.node ll lk lv ld lw lr
      let l2 := if getDepth lr > getDepth ll then rotateLeft l else l
      rotateRight (.node l2 k v d w r)
  | t => t

/-- `AVLTree::fixRight`: mirror image of `fixLeft`. -/
def fixRight : Tree K V → Tree K V
  | .node l k v d w (.node rl rk rv rd rw rr) =>
      let rt := Tree.node rl rk rv rd rw rr
      let r2 := if getDepth rl > getDepth rr then rotateRight rt else rt
      rotateLeft (.node l k v d w r2)
  | t => t

/-- `AVLTree::fix`: `updateNode`, then rebalance if the stored child depths
differ by more than one. -/
def fix (t : Tree K V) : Tree K V :=
  match t with
  | .nil => .nil
  | .node l k v d w r =>
      let u := updateNode (.node l k v d w r)
      match u with
      | .nil => .nil
      | .node l2 k2 v2 d2 w2 r2 =>
          if getDepth l2 > getDepth r2 + 1 then
            fixLeft (.node l2 k2 v2 d2 w2 r2)
          else if getDepth r2 > getDepth l2 + 1 then
            fixRight (.node l2 k2 v2 d2 w2 r2)
          else .node l2 k2 v2 d2 w2 r2

variable [LinearOrder K]

/-- `AVLTree::insert`: BST descent; a fresh leaf gets depth 1 and
weight 1; a duplicate key returns the node unchanged (skipping `fix` at
that node); every ancestor on the descent path is passed through `fix`. -/
def insert : Tree K V → K → V → Tree K V
  | .nil, k, v => .node .nil k v 1 1 .nil
  | .node l k2 v2 d w r, k, v =>
      if k < k2 then fix (.node (insert l k v) k2 v2 d w r)
      else if k2 < k then fix (.node l k2 v2 d w (insert r k v))
      else .node l k2 v2 d w r

/-- The in-order successor scan of `AVLTree::remove`
(`successor = node->right; while (successor->left) ...`), expressed on the
components of the right child. -/
def leftmost (l : Tree K V) (k : K) (v : V) : K × V :=
  match l with
  | .nil => (k, v)
  | .node ll lk lv _ _ _ => leftmost ll lk lv

/-- `AVLTree::remove`: BST descent; a node with a missing child is spliced
out without `fix`; otherwise the key/value are overwritten with the
in-order successor's and the successor's position is removed from the
right subtree; ancestors on the path are passed through `fix`. -/
def remove : Tree K V → K → Tree K V
  | .nil, _ => .nil
  | .node l k2 v2 d w r, k =>
      if k < k2 then fix (.node (remove l k) k2 v2 d w r)
      else if k2 < k then fix (.node l k2 v2 d w (remove r k))
      else
        match l, r with
        | .nil, _ => r
        | _, .nil => l
        | .node ll lk lv ld lw lr, .node rl rk rv rd rw rr =>
            let l0 := Tree.node ll lk lv ld lw lr
            let r0 := Tree.node rl rk rv rd rw rr
            let s := leftmost rl rk rv
            fix (.node l0 s.1 s.2 d w (remove r0 s.1))

/-- `AVLTree::search`: standard binary descent, equality first. -/
def search : Tree K V → K → Option (K × V)
  | .nil, _ => none
  | .node l k2 v2 _ _ r, k =>
      if k = k2 then some (k2, v2)
      else if k < k2 then search l k else search r k

/-- The in-place `node->value = value` assignment performed by
`AVLTree::set` when `search` finds the key: the structure is untouched,
only the value at the found node changes. -/
def setValue : Tree K V → K → V → Tree K V
  | .nil, _, _ => .nil
  | .node l k2 v2 d w r, k, v =>
      if k = k2 then .node l k2 v d w r
      else if k < k2 then .node (setValue l k v) k2 v2 d w r
      else .node l k2 v2 d w (setValue r k v)

/-- `AVLTree::set`: update the existing node's value in place if the key
is present, otherwise insert. -/
def set (t : Tree K V) (k : K) (v : V) : Tree K V :=
  match search t k with
  | some _ => setValue t k v
  | none => insert t k v

/-- `AVLTree::del`: `remove` from the root when the tree is non-empty. -/
def del (t : Tree K V) (k : K) : Tree K V :=
  match t with
  | .nil => .nil
  | _ => remove t k

/-- `AVLTree::exists`: `search(key) != nullptr`. -/
def existsKey (t : Tree K V) (k : K) : Bool :=
  (search t k).isSome

/-- `AVLTree::get`: value at the key, if present. -/
def get (t : Tree K V) (k : K) : Option V :=
  (search t k).map Prod.snd

/-- Recomputed height of the tree (what the stored `depth` should be). -/
def realDepth : Tree K V → Nat
  | .nil => 0
  | .node l _ _ _ _ r => 1 + max (realDepth l) (realDepth r)

/-- Recomputed node count (what the stored `weight` should be). -/
def realSize : Tree K V → Nat
  | .nil => 0
  | .node l _ _ _ _ r => 1 + realSize l + realSize r

/-- In-order key list. -/
def keys : Tree K V → List K
  | .nil => []
  | .node l k _ _ _ r => keys l ++ k :: keys r

/-- Invariant: every stored `depth` and `weight` equals the recomputed
height and node count. -/
def CacheOk : Tree K V → Prop
  | .nil => True
  | .node l _ _ d w r =>
      CacheOk l ∧ CacheOk r ∧ d = 1 + max (realDepth l) (realDepth r)
        ∧ w = 1 + realSize l + realSize r

/-- AVL balance on recomputed heights: the children's heights differ by at
most one, at every node. -/
def Bal : Tree K V → Prop
  | .nil => True
  | .node l _ _ _ _ r =>
      Bal l ∧ Bal r ∧ realDepth l ≤ realDepth r + 1 ∧ realDepth r ≤ realDepth l + 1

/-- BST ordering under the comparator. -/
def Ordered : Tree K V → Prop
  | .nil => True
  | .node l k _ _ _ r =>
      Ordered l ∧ Ordered r ∧ (∀ x ∈ keys l, x < k) ∧ (∀ x ∈ keys r, k < x)

/-- Well-formedness: ordering, balance and correct caches. -/
def WF (t : Tree K V) : Prop := Ordered t ∧ Bal t ∧ CacheOk t

end AVL

namespace AVLP

/-!
The same `src/avl.hpp` code with the raw `parent` pointers of `AVLNode`
made explicit, to check the parent back-reference invariant.  Every node
carries its allocation id (`make_unique` order) and the id currently held
in its `parent` field.  Parent writes are exactly the ones in the source:
`insert` re-parents the child it just assigned, `rotateLeft`/`rotateRight`
re-parent the transplanted subtree, the old root and the new root, and
`remove` performs no parent writes (the spliced-out child keeps the id of
the deleted node in its `parent` field).  Keys and values are `Nat` since
this model is only evaluated on concrete runs.
-/

/-- Tree of `AVLNode`s with explicit allocation ids and `parent` fields. -/
inductive PTree where
  | nil : PTree
  | node (l : PTree) (id : Nat) (key : Nat) (val : Nat) (depth : Nat)
      (weight : Nat) (parentF : Option Nat) (r : PTree) : PTree
deriving Repr, DecidableEq

/-- Stored depth (`getDepth`). -/
def pDepth : PTree → Nat
  | .nil => 0
  | .node _ _ _ _ d _ _ _ => d

/-- Stored weight (`getWeight`). -/
def pWeight : PTree → Nat
  | .nil => 0
  | .node _ _ _ _ _ w _ _ => w

/-- Write the root's `parent` field (`x->parent = ...`), a no-op on null. -/
def setParent (t : PTree) (p : Option Nat) : PTree :=
  match t with
  | .nil => .nil
  | .node l id k v d w _ r => .node l id k v d w p r

/-- `updateNode`. -/
def pUpdate : PTree → PTree
  | .nil => .nil
  | .node l id k v _ _ pf r =>
      .node l id k v (1 + max (pDepth l) (pDepth r))
        (1 + pWeight l + pWeight r) pf r

/-- `rotateLeft` with its three parent writes. -/
def pRotateLeft : PTree → PTree
  | .node l id k v d w pf (.node rl rid rk rv rd rw _ rr) =>
      let rl2 := setParent rl (some id)
      let inner := pUpdate (.node l id k v d w (some rid) rl2)
      pUpdate (.node inner rid rk rv rd rw pf rr)
  | t => t

/-- `rotateRight` with its three parent writes. -/
def pRotateRight : PTree → PTree
  | .node (.node ll lid lk lv ld lw _ lr) id k v d w pf r =>
      let lr2 := setParent lr (some id)
      let inner := pUpdate (.node lr2 id k v d w (some lid) r)
      pUpdate (.node ll lid lk lv ld lw pf inner)
  | t => t

/-- `fixLeft`. -/
def pFixLeft : PTree → PTree
  | .node (.node ll lid lk lv ld lw lpf lr) id k v d w pf r =>
      let l := PTree.node ll lid lk lv ld lw lpf lr
      let l2 := if pDepth lr > pDepth ll then pRotateLeft l else l
      pRotateRight (.node l2 id k v d w pf r)
  | t => t

/-- `fixRight`. -/
def pFixRight : PTree → PTree
  | .node l id k v d w pf (.node rl rid rk rv rd rw rpf rr) =>
      let rt := PTree.node rl rid rk rv rd rw rpf rr
      let r2 := if pDepth rl > pDepth rr then pRotateRight rt else rt
      pRotateLeft (.node l id k v d w pf r2)
  | t => t

/-- `fix`. -/
def pFix (t : PTree) : PTree :=
  match pUpdate t with
  | .nil => .nil
  | .node l id k v d w pf r =>
      if pDepth l > pDepth r + 1 then pFixLeft (.node l id k v d w pf r)
      else if pDepth r > pDepth l + 1 then pFixRight (.node l id k v d w pf r)
      else .node l id k v d w pf r

/-- `insert`, threading the allocation counter; after each recursive call
the source re-parents the assigned child (`node->left->parent = node`). -/
def pInsert : PTree → Nat → Nat → Nat → PTree × Nat
  | .nil, k, v, c => (.node .nil c k v 1 1 none .nil, c + 1)
  | .node l id k2 v2 d w pf r, k, v, c =>
      if k < k2 then
        let res := pInsert l k v c
        (pFix (.node (setParent res.1 (some id)) id k2 v2 d w pf r), res.2)
      else if k2 < k then
        let res := pInsert r k v c
        (pFix (.node l id k2 v2 d w pf (setParent res.1 (some id))), res.2)
      else (.node l id k2 v2 d w pf r, c)

/-- The successor scan of `remove`. -/
def pLeftmost (l : PTree) (k : Nat) (v : Nat) : Nat × Nat :=
  match l with
  | .nil => (k, v)
  | .node ll _ lk lv _ _ _ _ => pLeftmost ll lk lv

/-- `remove`: note that neither splice branch
(`return std::move(node->right)` / `std::move(node->left)`) nor the
re-assignment `node->left = remove(...)` writes any `parent` field. -/
def pRemove : PTree → Nat → PTree
  | .nil, _ => .nil
  | .node l id k2 v2 d w pf r, k =>
      if k < k2 then pFix (.node (pRemove l k) id k2 v2 d w pf r)
      else if k2 < k then pFix (.node l id k2 v2 d w pf (pRemove r k))
      else
        match l, r with
        | .nil, _ => r
        | _, .nil => l
        | .node ll lid lk lv ld lw lpf lr, .node rl rid rk rv rd rw rpf rr =>
            let l0 := PTree.node ll lid lk lv ld lw lpf lr
            let r0 := PTree.node rl rid rk rv rd rw rpf rr
            let s := pLeftmost rl rk rv
            pFix (.node l0 id s.1 s.2 d w pf (pRemove r0 s.1))

/-- Does the root's `parent` field hold the given id (vacuously true for
null)?  This is the ``x.child = y ⇒ y.parent = x'' check for one edge. -/
def parentIs : PTree → Nat → Bool
  | .nil, _ => true
  | .node _ _ _ _ _ _ pf _, i => pf == some i

/-- Parent back-reference consistency: every child's `parent` field holds
its actual parent's id. -/
def childrenOk : PTree → Bool
  | .nil => true
  | .node l id _ _ _ _ _ r =>
      parentIs l id && parentIs r id && childrenOk l && childrenOk r

/-- The concrete run for the counterexample: insert keys 2, 1, 4, 3
(allocation ids 0, 1, 2, 3), then remove key 4. -/
def runCounterexample : PTree :=
  let s0 := pInsert .nil 2 2 0
  let s1 := pInsert s0.1 1 1 s0.2
  let s2 := pInsert s1.1 4 4 s1.2
  let s3 := pInsert s2.1 3 3 s2.2
  pRemove s3.1 4

end AVLP

namespace HeapM

/-!
The TTL heap of `src/heap.hpp` and the entry-manager paths of
`src/entry_manager.hpp`.

`HeapItem<uint64_t>` carries a value and a `position_ref_` pointer into
the owning `Entry`'s `heap_idx` field.  Entries are identified by their
key; the collection of `heap_idx` fields lives in a store of type `S`
accessed through `IdxOps` (so the same heap code serves both a bare
index map and the command-level database).  `entry.heap_idx` is a
`size_t` with sentinel `(size_t)-1`, modelled as `Option Nat` with
`none` for the sentinel.  `heap[pos]` / `std::swap(heap[pos], heap.back())`
in `entry_manager.hpp` denote element access into the heap's backing
vector.  A throw of `std::out_of_range` is modelled as `Except.error`
raised before any mutation, mirroring the source where the check precedes
every write.
-/

/-- `HeapItem<uint64_t>`: a value and the (optional) back-reference,
identified by the owning entry's key. -/
structure HItem where
  val : Nat
  ref : Option String
deriving Repr, DecidableEq

/-- Dummy item for modelling vector indexing; never reached on the
in-bounds accesses the source performs. -/
def dflt : HItem := ⟨0, none⟩

/-- Access to the `heap_idx` fields of the entries living in a store of
type `S`. -/
structure IdxOps (S : Type) where
  getIdx : S → String → Option Nat
  setIdx : S → String → Option Nat → S

/-- Heap items together with the entry store holding the `heap_idx`
fields the items' back-references point into. -/
structure St (S : Type) where
  items : List HItem
  store : S
deriving DecidableEq

variable {S : Type}

/-- `*position_ref_ = pos` — write through a back-reference when it is
non-null. -/
def writeS (ops : IdxOps S) (store : S) (r : Option String) (pos : Nat) : S :=
  match r with
  | none => store
  | some k => ops.setIdx store k (some pos)

/-- `BinaryHeap::parent`. -/
def parentIdx (i : Nat) : Nat := (i + 1) / 2 - 1

/-- `BinaryHeap::sift_up`, with `temp` the item moved out of slot `pos`:
walk up while `temp.val < parent.val`, moving parents down and updating
their back-references, then place `temp` and update its back-reference.
`pos` strictly decreases on every iteration, so any `fuel ≥ pos` makes the
structural recursion exact: at `fuel = 0` the position is 0 and the item
is placed, exactly as the loop's exit does. -/
def siftUpGo (ops : IdxOps S) : Nat → List HItem → S → HItem → Nat →
    List HItem × S
  | 0, items, store, temp, pos =>
      (items.set pos temp, writeS ops store temp.ref pos)
  | fuel + 1, items, store, temp, pos =>
      if 0 < pos then
        let pp := parentIdx pos
        let pitem := items.getD pp dflt
        if temp.val < pitem.val then
          siftUpGo ops fuel (items.set pos pitem)
            (writeS ops store pitem.ref pos) temp pp
        else (items.set pos temp, writeS ops store temp.ref pos)
      else (items.set pos temp, writeS ops store temp.ref pos)

/-- The `min_pos` computation of one `BinaryHeap::sift_down` iteration:
the smaller of the in-bounds children, compared against `temp` when
`min_pos` is still `pos`. -/
def sdTarget (items : List HItem) (temp : HItem) (pos : Nat) : Nat :=
  let len := items.length
  let left := 2 * pos + 1
  let right := 2 * pos + 2
  let m1 := if left < len ∧ (items.getD left dflt).val < temp.val then left else pos
  let c := if m1 = pos then temp.val else (items.getD m1 dflt).val
  if right < len ∧ (items.getD right dflt).val < c then right else m1

theorem sdTarget_spec (items : List HItem) (temp : HItem) (pos : Nat) :
    sdTarget items temp pos = pos ∨
      (pos < sdTarget items temp pos ∧ sdTarget items temp pos < items.length) := by
  unfold sdTarget
  dsimp only
  split_ifs <;> omega

/-- `BinaryHeap::sift_down`: move the smaller child up (updating its
back-reference) until the heap condition holds, then place `temp`.
`pos` strictly increases below `items.length` on every iteration
(`sdTarget_spec`), so any `fuel ≥ items.length` makes the structural
recursion exact: at `fuel = 0` no child can remain and the item is
placed. -/
def siftDownGo (ops : IdxOps S) : Nat → List HItem → S → HItem → Nat →
    List HItem × S
  | 0, items, store, temp, pos =>
      (items.set pos temp, writeS ops store temp.ref pos)
  | fuel + 1, items, store, temp, pos =>
      let m := sdTarget items temp pos
      if m = pos then (items.set pos temp, writeS ops store temp.ref pos)
      else
        let moved := items.getD m dflt
        siftDownGo ops fuel (items.set pos moved)
          (writeS ops store moved.ref pos) temp m

/-- `BinaryHeap::push`: append, then sift up from the last slot. -/
def push (ops : IdxOps S) (st : St S) (item : HItem) : St S :=
  let items := st.items ++ [item]
  let res := siftUpGo ops items.length items st.store item (items.length - 1)
  ⟨res.1, res.2⟩

/-- `BinaryHeap::top`: read-only access to the root; throws
`std::out_of_range("Heap is empty")` on an empty heap. -/
def top (st : St S) : Except String HItem :=
  if st.items.isEmpty then .error "Heap is empty"
  else .ok (st.items.getD 0 dflt)

/-- `BinaryHeap::pop`: throws on empty; otherwise move the root out,
move the tail into the root slot, shrink, and sift down from 0. -/
def pop (ops : IdxOps S) (st : St S) : Except String (HItem × St S) :=
  if st.items.isEmpty then .error "Heap is empty"
  else
    let result := st.items.getD 0 dflt
    if st.items.length > 1 then
      let last := st.items.getD (st.items.length - 1) dflt
      let items2 := (st.items.set 0 last).dropLast
      let res := siftDownGo ops items2.length items2 st.store last 0
      .ok (result, ⟨res.1, res.2⟩)
    else .ok (result, ⟨[], st.store⟩)

/-- `BinaryHeap::update(pos)`: throws `std::out_of_range("Position out of
range")` when `pos` is not a valid slot; otherwise sift up when the item
is smaller than its parent, else sift down. -/
def update (ops : IdxOps S) (st : St S) (pos : Nat) : Except String (St S) :=
  if pos ≥ st.items.length then .error "Position out of range"
  else
    let cur := st.items.getD pos dflt
    if pos > 0 ∧ cur.val < (st.items.getD (parentIdx pos) dflt).val then
      let res := siftUpGo ops st.items.length st.items st.store cur pos
      .ok ⟨res.1, res.2⟩
    else
      let res := siftDownGo ops st.items.length st.items st.store cur pos
      .ok ⟨res.1, res.2⟩

/-- `EntryManager::remove_from_heap` (`src/entry_manager.hpp`): read the
entry's `heap_idx`, bail out on an out-of-range slot, swap the slot with
the last element, call `BinaryHeap::pop()`, restore order at the slot if
still in range, and clear the entry's `heap_idx`. -/
def removeFromHeap (ops : IdxOps S) (st : St S) (k : String) : St S :=
  match ops.getIdx st.store k with
  | none => st
  | some pos =>
    if pos ≥ st.items.length then st
    else
      let lastPos := st.items.length - 1
      let items2 :=
        if pos ≠ lastPos then
          (st.items.set pos (st.items.getD lastPos dflt)).set lastPos
            (st.items.getD pos dflt)
        else st.items
      let st2 : St S := ⟨items2, st.store⟩
      let st3 := match pop ops st2 with
        | .ok res => res.2
        | .error _ => st2
      let st4 :=
        if pos < st3.items.length then
          match update ops st3 pos with
          | .ok s => s
          | .error _ => st3
        else st3
      ⟨st4.items, ops.setIdx st4.store k none⟩

/-- `EntryManager::add_to_heap`: push an item whose back-reference is the
entry's `heap_idx`, then store `heap.size() - 1` into `heap_idx` and call
`heap.update` there. -/
def addToHeap (ops : IdxOps S) (st : St S) (k : String) (expire : Nat) : St S :=
  let st2 := push ops st ⟨expire, some k⟩
  let store3 := ops.setIdx st2.store k (some (st2.items.length - 1))
  let st3 : St S := ⟨st2.items, store3⟩
  match update ops st3 (st2.items.length - 1) with
  | .ok s => s
  | .error _ => st3

/-- `EntryManager::update_heap`: bail out on an out-of-range `heap_idx`,
overwrite the slot's value, and restore heap order. -/
def updateHeap (ops : IdxOps S) (st : St S) (k : String) (newVal : Nat) : St S :=
  match ops.getIdx st.store k with
  | none => st
  | some pos =>
    if pos ≥ st.items.length then st
    else
      let items2 := st.items.set pos ⟨newVal, (st.items.getD pos dflt).ref⟩
      match update ops ⟨items2, st.store⟩ pos with
      | .ok s => s
      | .error _ => ⟨items2, st.store⟩

/-- `EntryManager::set_entry_ttl`: `ttl_ms ≤ 0` cancels any pending
expiry; otherwise compute `expire_at = now + ttl_ms·1000` and push or
update the entry's heap item. -/
def setEntryTtl (ops : IdxOps S) (st : St S) (k : String) (ttl : Int)
    (now : Nat) : St S :=
  if ttl ≤ 0 then
    if ops.getIdx st.store k ≠ none then removeFromHeap ops st k else st
  else
    let expire := now + ttl.toNat * 1000
    match ops.getIdx st.store k with
    | none => addToHeap ops st k expire
    | some _ => updateHeap ops st k expire

/-- The heap-with-backref invariant of §4.3: every item with a non-null
back-reference has the item's actual position stored through it. -/
def backRefOk (ops : IdxOps S) (st : St S) : Bool :=
  (List.range st.items.length).all fun i =>
    match (st.items.getD i dflt).ref with
    | none => true
    | some k => ops.getIdx st.store k == some i

/-- A bare store of `heap_idx` fields: one `Option Nat` per entry key. -/
def mapOps : IdxOps (List (String × Option Nat)) where
  getIdx s k := match s.find? (fun p => p.1 = k) with
    | some p => p.2
    | none => none
  setIdx s k v := s.map fun p => if p.1 = k then (p.1, v) else p

end HeapM

namespace Wire

/-!
The request parser `RequestParser::parse` (`src/request_parser.hpp`; the
copy in `src/server.cpp` is byte-for-byte the same logic).  Bytes are
`Nat` values < 256; the `std::memcpy` of a `uint32_t` is the
little-endian decode of four bytes.  `std::unexpected(errc::message_size)`
and `std::unexpected(errc::bad_message)` are the two error outcomes.
-/

abbrev Bytes := List Nat

/-- `MAX_MSG_SIZE` (4096). -/
def MAX_MSG_SIZE : Nat := 4096

/-- Little-endian `uint32_t` decode of the first four bytes. -/
def le32 (data : Bytes) : Nat :=
  data.getD 0 0 + data.getD 1 0 * 256 + data.getD 2 0 * 65536 +
    data.getD 3 0 * 16777216

/-- Little-endian `uint32_t` encode (for stating round-trips). -/
def le32enc (n : Nat) : Bytes :=
  [n % 256, n / 256 % 256, n / 65536 % 256, n / 16777216 % 256]

/-- The two parse error kinds. -/
inductive PErr where
  | messageSize : PErr
  | badMessage : PErr
deriving Repr, DecidableEq

/-- The `while (pos < end)` loop of `RequestParser::parse` over the
remaining payload: read a 4-byte length, bounds-check it against the
remaining bytes, take that many bytes as the next argument. -/
def parseArgs (rest : Bytes) : Except PErr (List Bytes) :=
  if rest.isEmpty then .ok []
  else if rest.length < 4 then .error .badMessage
  else
    let strLen := le32 rest
    let body := rest.drop 4
    if strLen > body.length then .error .badMessage
    else
      match parseArgs (body.drop strLen) with
      | .ok args => .ok (body.take strLen :: args)
      | .error e => .error e
termination_by rest.length
decreasing_by simp only [List.length_drop]; omega

/-- `RequestParser::parse`: read the total length `L`, reject `L` above
`MAX_MSG_SIZE` or beyond the available data, then parse exactly the `L`
payload bytes as arguments (any further bytes belong to later frames). -/
def parseReq (data : Bytes) : Except PErr (List Bytes) :=
  if data.length < 4 then .error .messageSize
  else
    let len := le32 data
    if len > MAX_MSG_SIZE then .error .messageSize
    else if 4 + len > data.length then .error .messageSize
    else parseArgs ((data.drop 4).take len)

/-- The payload encoding actually consumed by the parser: a concatenation
of (4-byte little-endian length, that many bytes) records, one per
argument, with no leading argument count. -/
def encodeArg (a : Bytes) : Bytes := le32enc a.length ++ a

/-- Concatenation of the per-argument records. -/
def encodePayload (args : List Bytes) : Bytes :=
  (args.map encodeArg).flatten

/-- The payload format asserted by the claim (§4.6 of the spec): a 4-byte
little-endian argument count `N` followed by exactly `N` length-prefixed
arguments.  Decoder written from the claim's words, for comparison with
the parser embedded from the source. -/
def decodeCountedPayload (payload : Bytes) : Option (List Bytes) :=
  if payload.length < 4 then none
  else
    let n := le32 payload
    let rec go : Nat → Bytes → Option (List Bytes)
      | 0, rest => if rest.isEmpty then some [] else none
      | m + 1, rest =>
          if rest.length < 4 then none
          else
            let sl := le32 rest
            let body := rest.drop 4
            if sl > body.length then none
            else
              match go m (body.drop sl) with
              | some args => some (body.take sl :: args)
              | none => none
    go n (payload.drop 4)

end Wire

namespace ZS

/-!
The sorted-set engine of `src/src/zset.hpp`: an `AVLTree<std::string,
double>` keyed by member NAME (the tree holds name ↦ score, ordered by
name) plus a hash from name to the `ZNode`.  A `ZNode` is the pair of its
name and score, so the hash is modelled as an association list from name
to score (mutating a node's score through `set_value` is visible through
the hash, since the hash stores a pointer to the same node).
-/

/-- Member names are raw byte strings compared byte-lexicographically
(`std::string` comparison); modelled as `List Char`. -/
abbrev Name := List Char

/-- `ZSet`: the AVL tree (`tree`) and the name hash (`hash`). -/
structure ZSet where
  tree : AVL.Tree Name Int
  hash : List (Name × Int)
deriving Repr, DecidableEq

/-- A `ZSet` with no members. -/
def emptyZ : ZSet := ⟨.nil, []⟩

/-- `ZSet::lookup`: hash probe only. -/
def lookup (zs : ZSet) (name : Name) : Option (Name × Int) :=
  zs.hash.find? (fun p => p.1 = name)

/-- `ZSet::update_score`: re-check the hash, then `tree.del(key)`,
`node->set_value(new_score)` (visible through the hash, which stores the
node), `tree.set(key, new_score)`. -/
def updateScore (zs : ZSet) (name : Name) (newScore : Int) : ZSet :=
  match zs.hash.find? (fun p => p.1 = name) with
  | none => zs
  | some _ =>
      ⟨AVL.set (AVL.del zs.tree name) name newScore,
        zs.hash.map (fun p => if p.1 = name then (p.1, newScore) else p)⟩

/-- `ZSet::add_internal`: update the score when the name exists
(returning `false`); otherwise create the node (bailing out on an empty
key), insert it into the hash and `tree.set` it (returning `true`). -/
def addInternal (zs : ZSet) (name : Name) (score : Int) : Bool × ZSet :=
  match lookup zs name with
  | some _ => (false, updateScore zs name score)
  | none =>
      if name = [] then (false, zs)
      else (true, ⟨AVL.set zs.tree name score, (name, score) :: zs.hash⟩)

/-- `ZSet::query` as it stands in `src/src/zset.hpp` (and `src/zset.hpp`):
`tree.exists(name) ? lookup(name) : nullptr` — the `score` and `offset`
arguments are ignored, there is no `limit` parameter, and at most the
single node named exactly `name` is returned. -/
def query (zs : ZSet) (_score : Int) (name : Name) (_offset : Int) :
    Option (Name × Int) :=
  if AVL.existsKey zs.tree name then lookup zs name else none

/-- Insertion into the (score asc, then name byte-lexicographic) line. -/
def insLine (p : Name × Int) : List (Name × Int) → List (Name × Int)
  | [] => [p]
  | q :: rest =>
      if p.2 < q.2 ∨ (p.2 = q.2 ∧ p.1 ≤ q.1) then p :: q :: rest
      else q :: insLine p rest

/-- The members sorted by (score, name). -/
def sortLine (members : List (Name × Int)) : List (Name × Int) :=
  members.foldr insLine []

/-- Modelled from the spec: the four-argument
`ZSet::query(score_lo, name_lo, offset, limit)` window that
`handle_zquery` calls does not exist under `src/` (the in-tree
`ZSet::query` takes three arguments and ignores them, and
`AVLTree::offset` is present only as commented-out code); §4.4/§4.1 of
the spec define it as: seek the leftmost member with
(score, name) ≥ (score_lo, name_lo), move `offset` in-order positions
(out-of-range means ``not present''), then yield up to `limit`
(name, score) pairs in order. -/
def specQueryWindow (members : List (Name × Int)) (s : Int) (n : Name)
    (off : Int) (lim : Int) : List (Name × Int) :=
  let line := sortLine members
  match line.findIdx? (fun p => decide (s < p.2 ∨ (s = p.2 ∧ n ≤ p.1))) with
  | none => []
  | some i =>
      let t : Int := (i : Int) + off
      if t < 0 ∨ (line.length : Int) ≤ t then []
      else (line.drop t.toNat).take lim.toNat

end ZS

namespace Cmd

/-!
The command dispatcher and handlers of `src/command_processor.hpp`
(`CommandProcessor`), and the `handle_zquery` variant of `src/server.cpp`.

The response buffer is modelled at the granularity of the serializer
calls: each `ResponseSerializer::serialize_*` call appends one typed
token.  `Entry` is the record of `src/entry_manager.hpp` plus the `type`
field every handler reads (`EntryType::String` / `EntryType::ZSet` — the
enum and the field are used but declared nowhere under `src/`; a fresh
entry carries the first enumerator).  `lookup_entry` and
`get_or_create_entry` are likewise only called, never defined, under
`src/` and are modelled from the spec.  The TTL heap and the entries'
`heap_idx` fields are the `HeapM` state with the database as the
back-reference store.
-/

/-- One response token per `ResponseSerializer::serialize_*` call. -/
inductive RToken where
  | nilT : RToken
  | errT (code : Int) (msg : String) : RToken
  | strT (s : String) : RToken
  | intT (n : Int) : RToken
  | dblT (x : Int) : RToken
  | arrT (n : Nat) : RToken
deriving Repr, DecidableEq

/-- `ERR_ARG`. -/
def ERR_ARG : Int := -1
/-- `ERR_UNKNOWN`. -/
def ERR_UNKNOWN : Int := -2
/-- `ERR_TYPE`. -/
def ERR_TYPE : Int := -3

/-- `EntryType` (used by the handlers; `String` and `ZSet`). -/
inductive EType where
  | stringT : EType
  | zsetT : EType
deriving Repr, DecidableEq

/-- The per-key `Entry`: kind, string value, optional sorted set, and the
TTL heap slot (`heap_idx`, sentinel `(size_t)-1` as `none`). -/
structure CEntry where
  etype : EType
  value : String
  zs : Option ZS.ZSet
  heapIdx : Option Nat
deriving Repr, DecidableEq

/-- The global key space. -/
abbrev DB := List (String × CEntry)

/-- Modelled from the spec: `lookup_entry(db, key)` is called by every
handler but defined nowhere under `src/`; per §3 it returns the entry
stored for the key, if any. -/
def lookupEntry (db : DB) (k : String) : Option CEntry :=
  (db.find? (fun p => p.1 = k)).map (fun p => p.2)

/-- A value-initialized `Entry`: empty string value, no sorted set, no
TTL slot, and the first `EntryType` enumerator. -/
def freshEntry : CEntry := ⟨.stringT, "", none, none⟩

/-- Result of `get_or_create_entry`. -/
structure GocRes where
  entry : CEntry
  created : Bool
  db : DB

/-- Modelled from the spec: `get_or_create_entry(db, key)` is called by
the SET/ZADD handlers but defined nowhere under `src/`; per §3/§4.9 it
returns the existing entry (`created = false`) or inserts and returns a
fresh one (`created = true`). -/
def getOrCreate (db : DB) (k : String) : GocRes :=
  match lookupEntry db k with
  | some e => ⟨e, false, db⟩
  | none => ⟨freshEntry, true, (k, freshEntry) :: db⟩

/-- Apply an in-place mutation to the entry stored for a key. -/
def dbSet (db : DB) (k : String) (f : CEntry → CEntry) : DB :=
  db.map (fun p => if p.1 = k then (p.1, f p.2) else p)

/-- The `heap_idx` store view of the database, for the heap's
back-references. -/
def dbOps : HeapM.IdxOps DB where
  getIdx db k := (lookupEntry db k).bind (fun e => e.heapIdx)
  setIdx db k v := dbSet db k (fun e => { e with heapIdx := v })

/-- The full mutable state a handler sees: the TTL heap and the
database. -/
abbrev World := HeapM.St DB

/-- `std::tolower` on ASCII, applied to the verb. -/
def asciiLower (s : String) : String :=
  String.mk (s.data.map (fun c =>
    if 'A' ≤ c ∧ c ≤ 'Z' then Char.ofNat (c.toNat + 32) else c))

/-- `parse_int` (`std::stoll` with the `pos == str.size()` full-consumption
check), on sign-plus-digits decimal literals; `std::stoll`'s tolerance
for leading whitespace and its 64-bit overflow exception are outside the
inputs used here. -/
def parseIntSrc (s : String) : Option Int :=
  let digitsVal : List Char → Option Nat := fun cs =>
    if cs ≠ [] ∧ cs.all Char.isDigit then
      some (cs.foldl (fun a c => a * 10 + (c.toNat - 48)) 0)
    else none
  match s.data with
  | [] => none
  | '-' :: rest => (digitsVal rest).map (fun n => -(n : Int))
  | '+' :: rest => (digitsVal rest).map (fun n => (n : Int))
  | cs => (digitsVal cs).map (fun n => (n : Int))

/-- `parse_double` (`std::stod` with the full-consumption check and the
`!std::isnan` guard), restricted to the integer-valued decimal literals
the claims exercise, where IEEE-754 comparison is numeric comparison. -/
def parseDoubleSrc (s : String) : Option Int := parseIntSrc s

/-- The result of a handler: the tokens it appends and the state it
leaves. -/
abbrev HRes := List RToken × World

/-- `CommandProcessor::handle_get`. -/
def handleGet (args : List String) (st : World) (_now : Nat) : HRes :=
  if args.length ≠ 2 then ([.errT ERR_ARG "GET requires exactly one key"], st)
  else
    match lookupEntry st.store (args.getD 1 "") with
    | none => ([.nilT], st)
    | some e =>
        if e.etype ≠ .stringT then ([.errT ERR_TYPE "Key holds wrong type"], st)
        else ([.strT e.value], st)

/-- `CommandProcessor::handle_set`. -/
def handleSet (args : List String) (st : World) (_now : Nat) : HRes :=
  if args.length ≠ 3 then ([.errT ERR_ARG "SET requires key and value"], st)
  else
    let k := args.getD 1 ""
    let goc := getOrCreate st.store k
    if ¬goc.created ∧ goc.entry.etype ≠ .stringT then
      ([.errT ERR_TYPE "Key holds wrong type"], st)
    else
      let db2 := dbSet goc.db k
        (fun e => { e with etype := .stringT, value := args.getD 2 "" })
      ([.nilT], ⟨st.items, db2⟩)

/-- `CommandProcessor::handle_zadd` (`src/command_processor.hpp`): note
that the created branch does not assign `entry->type`.  The call
`entry->zset->add(name, score)` resolves to the synchronous
`ZSet::add_internal` (the `std::future<bool>` wrapper is assigned to a
`bool` in the source). -/
def handleZadd (args : List String) (st : World) (_now : Nat) : HRes :=
  if args.length ≠ 4 then
    ([.errT ERR_ARG "ZADD requires key, score and member"], st)
  else
    match parseDoubleSrc (args.getD 2 "") with
    | none => ([.errT ERR_ARG "Invalid score value"], st)
    | some score =>
        let k := args.getD 1 ""
        let goc := getOrCreate st.store k
        if ¬goc.created ∧ goc.entry.etype ≠ .zsetT then
          ([.errT ERR_TYPE "Key holds wrong type"], st)
        else
          let zs0 := goc.entry.zs.getD ZS.emptyZ
          let res := ZS.addInternal zs0 (args.getD 3 "").data score
          let db2 := dbSet goc.db k (fun e => { e with zs := some res.2 })
          ([.intT (if res.1 then 1 else 0)], ⟨st.items, db2⟩)

/-- Modelled from the spec: `serialize_array` is called by the ZQUERY
handlers but defined in no serializer under `src/`; §4.6 specifies the
array token as a header carrying the element count. -/
def serializeArray (n : Nat) : RToken := .arrT n

/-- `CommandProcessor::handle_zquery` (`src/command_processor.hpp`): the
validation `!parse_int(offset) || !parse_int(limit) || offset < 0 ||
limit <= 0` rejects before any lookup; the result window is the
spec-modelled four-argument query (see `ZS.specQueryWindow`). -/
def handleZquery (args : List String) (st : World) (_now : Nat) : HRes :=
  if args.length ≠ 6 then
    ([.errT ERR_ARG "ZQUERY requires key, score, name, offset, limit"], st)
  else
    match parseDoubleSrc (args.getD 2 "") with
    | none => ([.errT ERR_ARG "Invalid score value"], st)
    | some score =>
        match parseIntSrc (args.getD 4 ""), parseIntSrc (args.getD 5 "") with
        | some off, some lim =>
            if off < 0 ∨ lim ≤ 0 then
              ([.errT ERR_ARG "Invalid offset or limit"], st)
            else
              match lookupEntry st.store (args.getD 1 "") with
              | none => ([serializeArray 0], st)
              | some e =>
                  if e.etype ≠ .zsetT ∨ e.zs = none then
                    ([.errT ERR_TYPE "Key holds wrong type"], st)
                  else
                    let results :=
                      ZS.specQueryWindow (e.zs.getD ZS.emptyZ).hash score
                        (args.getD 3 "").data off lim
                    (serializeArray (results.length * 2) ::
                      (results.map (fun r =>
                        [RToken.strT (String.mk r.1), RToken.dblT r.2])).flatten,
                      st)
        | _, _ => ([.errT ERR_ARG "Invalid offset or limit"], st)

/-- `CommandProcessor::handle_pexpire` (`src/command_processor.hpp`): the
validation `!parse_int(ttl) || ttl_ms < 0` rejects before any lookup;
otherwise a missing key yields `Integer(0)` and an existing key gets
`set_entry_ttl` applied and yields `Integer(1)`. -/
def handlePexpire (args : List String) (st : World) (now : Nat) : HRes :=
  if args.length ≠ 3 then
    ([.errT ERR_ARG "PEXPIRE requires key and milliseconds"], st)
  else
    match parseIntSrc (args.getD 2 "") with
    | none => ([.errT ERR_ARG "Invalid TTL value"], st)
    | some ttl =>
        if ttl < 0 then ([.errT ERR_ARG "Invalid TTL value"], st)
        else
          let k := args.getD 1 ""
          match lookupEntry st.store k with
          | none => ([.intT 0], st)
          | some _ => ([.intT 1], HeapM.setEntryTtl dbOps st k ttl now)

/-- `CommandProcessor::handle_pttl` (`src/command_processor.hpp`). -/
def handlePttl (args : List String) (st : World) (now : Nat) : HRes :=
  if args.length ≠ 2 then ([.errT ERR_ARG "PTTL requires key"], st)
  else
    match lookupEntry st.store (args.getD 1 "") with
    | none => ([.intT (-2)], st)
    | some e =>
        match e.heapIdx with
        | none => ([.intT (-1)], st)
        | some idx =>
            if idx ≥ st.items.length then ([.intT (-1)], st)
            else
              let expireAt := (st.items.getD idx HeapM.dflt).val
              let ttl : Int :=
                if expireAt > now then ((expireAt - now) / 1000 : Nat) else 0
              ([.intT ttl], st)

/-- The handler table of `src/command_processor.hpp`
(`CommandProcessor::command_handlers`): six verbs, no others. -/
def commandHandlers : List (String × (List String → World → Nat → HRes)) :=
  [("get", handleGet), ("set", handleSet), ("zadd", handleZadd),
   ("zquery", handleZquery), ("pexpire", handlePexpire), ("pttl", handlePttl)]

/-- The verbs of the `src/server.cpp` dispatcher table
(`CommandProcessor::command_handlers`, lines 627–636): the same six. -/
def serverCommandVerbs : List String :=
  ["get", "set", "zadd", "zquery", "pexpire", "pttl"]

/-- `CommandProcessor::process_command`: empty command → `Error(ARG)`;
unknown lowercased verb → `Error(UNKNOWN, "unknown command")`; otherwise
dispatch. -/
def processCommand (args : List String) (st : World) (now : Nat) : HRes :=
  if args.isEmpty then ([.errT ERR_ARG "empty command"], st)
  else
    match commandHandlers.find? (fun p => p.1 = asciiLower (args.getD 0 "")) with
    | none => ([.errT ERR_UNKNOWN "unknown command"], st)
    | some p => p.2 args st now

/-- `handle_zquery` as written in `src/server.cpp` (lines 537–578): no
sign validation on offset or limit; a missing key yields an empty array;
a wrong kind yields `Error(TYPE)`; `limit <= 0` yields an empty array;
otherwise the (spec-modelled) query window is serialized. -/
def serverHandleZquery (args : List String) (st : World) (_now : Nat) : HRes :=
  if args.length ≠ 6 then
    ([.errT ERR_ARG "ZQUERY requires key, score, name, offset, limit"], st)
  else
    match parseDoubleSrc (args.getD 2 "") with
    | none => ([.errT ERR_ARG "Invalid score value"], st)
    | some score =>
        match parseIntSrc (args.getD 4 ""), parseIntSrc (args.getD 5 "") with
        | some off, some lim =>
            match lookupEntry st.store (args.getD 1 "") with
            | none => ([serializeArray 0], st)
            | some e =>
                if e.etype ≠ .zsetT then
                  ([.errT ERR_TYPE "Key holds wrong type"], st)
                else if lim ≤ 0 then ([serializeArray 0], st)
                else
                  let results :=
                    ZS.specQueryWindow (e.zs.getD ZS.emptyZ).hash score
                      (args.getD 3 "").data off lim
                  (serializeArray (results.length * 2) ::
                    (results.map (fun r =>
                      [RToken.strT (String.mk r.1), RToken.dblT r.2])).flatten,
                    st)
        | _, _ => ([.errT ERR_ARG "Invalid offset or limit"], st)

end Cmd

namespace Conn

/-!
The per-connection request step `Connection::try_process_request`
(`src/include/connection.hpp`, the same logic as in `src/server.cpp`).
The write buffer is modelled as the framed reply's token list (the 4-byte
length prefix is determined by it).
-/

/-- `ConnectionState`. -/
inductive CState where
  | request : CState
  | response : CState
  | endS : CState
deriving Repr, DecidableEq

/-- Per-connection state: the state machine state, the read buffer and
the pending framed reply. -/
structure ConnSt where
  state : CState
  rbuf : Wire.Bytes
  wbuf : List Cmd.RToken
deriving Repr, DecidableEq

/-- Argument bytes to the `std::string` the dispatcher receives. -/
def bytesToString (b : Wire.Bytes) : String :=
  String.mk (b.map Char.ofNat)

/-- Result of one `try_process_request` step: the loop-continuation flag,
the connection, the shared state, and the command the dispatcher ran (if
any). -/
structure StepRes where
  cont : Bool
  conn : ConnSt
  world : Cmd.World
  ran : Option (List String)

/-- `Connection::try_process_request`: fewer than four buffered bytes —
wait for more; a parse failure — transition to `End` without running any
command; otherwise run the dispatcher, stage the framed reply, transition
to `Response`, and consume `sizeof(uint32_t) + cmd.size()` bytes (the
source counts the number of arguments here, not payload bytes). -/
def tryProcessRequest (conn : ConnSt) (world : Cmd.World) (now : Nat) : StepRes :=
  if conn.rbuf.length < 4 then ⟨false, conn, world, none⟩
  else
    match Wire.parseReq conn.rbuf with
    | .error _ => ⟨false, { conn with state := .endS }, world, none⟩
    | .ok cmd =>
        let args := cmd.map bytesToString
        let res := Cmd.processCommand args world now
        let consumed := 4 + cmd.length
        let rbuf2 :=
          if consumed < conn.rbuf.length then conn.rbuf.drop consumed else []
        ⟨rbuf2.length ≥ 4, ⟨.response, rbuf2, res.1⟩, res.2, some args⟩

end Conn

namespace AVL

variable {K V : Type}

/-- Operations offered by the public `AVLTree` interface (`set`, `del`). -/
inductive OpA (K V : Type) where
  | setA (k : K) (v : V) : OpA K V
  | delA (k : K) : OpA K V

/-- Run a sequence of `set`/`del` operations from the empty tree. -/
def runOps [LinearOrder K] (ops : List (OpA K V)) : Tree K V :=
  ops.foldl (fun t op =>
    match op with
    | .setA k v => set t k v
    | .delA k => del t k) .nil

/-- `Ordered` is decidable. -/
instance instDecOrdered [LinearOrder K] : (t : Tree K V) → Decidable (Ordered t)
  | .nil => .isTrue trivial
  | .node l k _ _ _ r =>
      haveI := instDecOrdered l
      haveI := instDecOrdered r
      decidable_of_iff
        (Ordered l ∧ Ordered r ∧ (∀ x ∈ keys l, x < k) ∧ (∀ x ∈ keys r, k < x))
        Iff.rfl

/-- `Bal` is decidable. -/
instance instDecBal : (t : Tree K V) → Decidable (Bal t)
  | .nil => .isTrue trivial
  | .node l _ _ _ _ r =>
      haveI := instDecBal l
      haveI := instDecBal r
      decidable_of_iff
        (Bal l ∧ Bal r ∧ realDepth l ≤ realDepth r + 1 ∧ realDepth r ≤ realDepth l + 1)
        Iff.rfl

/-- `CacheOk` is decidable. -/
instance instDecCacheOk : (t : Tree K V) → Decidable (CacheOk t)
  | .nil => .isTrue trivial
  | .node l _ _ d w r =>
      haveI := instDecCacheOk l
      haveI := instDecCacheOk r
      decidable_of_iff
        (CacheOk l ∧ CacheOk r ∧ d = 1 + max (realDepth l) (realDepth r)
          ∧ w = 1 + realSize l + realSize r)
        Iff.rfl

/-- `WF` is decidable. -/
instance instDecWF [LinearOrder K] (t : Tree K V) : Decidable (WF t) := by
  unfold WF; infer_instance

end AVL

namespace AVL

variable {K V : Type}

@[simp] theorem keys_nil : keys (.nil : Tree K V) = [] := rfl

@[simp] theorem keys_node (l : Tree K V) (k v d w r) :
    keys (.node l k v d w r) = keys l ++ k :: keys r := rfl

@[simp] theorem realDepth_nil : realDepth (.nil : Tree K V) = 0 := rfl

@[simp] theorem realDepth_node (l : Tree K V) (k v d w r) :
    realDepth (.node l k v d w r) = 1 + max (realDepth l) (realDepth r) := rfl

@[simp] theorem realSize_nil : realSize (.nil : Tree K V) = 0 := rfl

@[simp] theorem realSize_node (l : Tree K V) (k v d w r) :
    realSize (.node l k v d w r) = 1 + realSize l + realSize r := rfl

variable [LinearOrder K]

@[simp] theorem ordered_nil : Ordered (.nil : Tree K V) := trivial

theorem ordered_node {l : Tree K V} {k v d w r} :
    Ordered (.node l k v d w r) ↔
      Ordered l ∧ Ordered r ∧ (∀ x ∈ keys l, x < k) ∧ (∀ x ∈ keys r, k < x) :=
  Iff.rfl

@[simp] theorem bal_nil : Bal (.nil : Tree K V) := trivial

theorem bal_node {l : Tree K V} {k v d w r} :
    Bal (.node l k v d w r) ↔
      Bal l ∧ Bal r ∧ realDepth l ≤ realDepth r + 1 ∧ realDepth r ≤ realDepth l + 1 :=
  Iff.rfl

@[simp] theorem cacheOk_nil : CacheOk (.nil : Tree K V) := trivial

theorem cacheOk_node {l : Tree K V} {k v d w r} :
    CacheOk (.node l k v d w r) ↔
      CacheOk l ∧ CacheOk r ∧ d = 1 + max (realDepth l) (realDepth r)
        ∧ w = 1 + realSize l + realSize r :=
  Iff.rfl

theorem wf_nil [LinearOrder K] : WF (.nil : Tree K V) := ⟨trivial, trivial, trivial⟩

theorem wf_node_iff [LinearOrder K] {l : Tree K V} {k v d w r} :
    WF (.node l k v d w r) ↔
      (WF l ∧ WF r ∧ (∀ x ∈ keys l, x < k) ∧ (∀ x ∈ keys r, k < x)
        ∧ realDepth l ≤ realDepth r + 1 ∧ realDepth r ≤ realDepth l + 1
        ∧ d = 1 + max (realDepth l) (realDepth r) ∧ w = 1 + realSize l + realSize r) := by
  simp only [WF, ordered_node, bal_node, cacheOk_node]
  tauto

theorem cache_depth {t : Tree K V} (h : CacheOk t) : getDepth t = realDepth t := by
  cases t with
  | nil => rfl
  | node l k v d w r => exact (cacheOk_node.mp h).2.2.1

theorem cache_weight {t : Tree K V} (h : CacheOk t) : getWeight t = realSize t := by
  cases t with
  | nil => rfl
  | node l k v d w r => exact (cacheOk_node.mp h).2.2.2

theorem realDepth_pos_node {t : Tree K V} (h : 0 < realDepth t) :
    ∃ l k v d w r, t = .node l k v d w r := by
  cases t with
  | nil => simp at h
  | node l k v d w r => exact ⟨l, k, v, d, w, r, rfl⟩

end AVL

namespace AVL

variable {K V : Type}


theorem fix_node_eq (l : Tree K V) (k v d w r) :
    fix (.node l k v d w r) =
      (if getDepth l > getDepth r + 1 then
        fixLeft (.node l k v (1 + max (getDepth l) (getDepth r))
          (1 + getWeight l + getWeight r) r)
      else if getDepth r > getDepth l + 1 then
        fixRight (.node l k v (1 + max (getDepth l) (getDepth r))
          (1 + getWeight l + getWeight r) r)
      else .node l k v (1 + max (getDepth l) (getDepth r))
        (1 + getWeight l + getWeight r) r) := rfl

theorem fixLeft_node_eq (ll : Tree K V) (lk lv ld lw) (lr : Tree K V) (k v d w r) :
    fixLeft (.node (.node ll lk lv ld lw lr) k v d w r) =
      rotateRight (.node
        (if getDepth lr > getDepth ll then rotateLeft (.node ll lk lv ld lw lr)
         else .node ll lk lv ld lw lr) k v d w r) := rfl

theorem fixRight_node_eq (l : Tree K V) (k v d w) (rl : Tree K V) (rk rv rd rw rr) :
    fixRight (.node l k v d w (.node rl rk rv rd rw rr)) =
      rotateLeft (.node l k v d w
        (if getDepth rl > getDepth rr then rotateRight (.node rl rk rv rd rw rr)
         else .node rl rk rv rd rw rr)) := rfl

theorem rotateRight_eq (ll : Tree K V) (lk lv ld lw) (lr : Tree K V) (k v d w r) :
    rotateRight (.node (.node ll lk lv ld lw lr) k v d w r) =
      .node ll lk lv (1 + max (getDepth ll) (1 + max (getDepth lr) (getDepth r)))
        (1 + getWeight ll + (1 + getWeight lr + getWeight r))
        (.node lr k v (1 + max (getDepth lr) (getDepth r))
          (1 + getWeight lr + getWeight r) r) := rfl

theorem rotateLeft_eq (l : Tree K V) (k v d w) (rl : Tree K V) (rk rv rd rw rr) :
    rotateLeft (.node l k v d w (.node rl rk rv rd rw rr)) =
      .node (.node l k v (1 + max (getDepth l) (getDepth rl))
          (1 + getWeight l + getWeight rl) rl) rk rv
        (1 + max (1 + max (getDepth l) (getDepth rl)) (getDepth rr))
        (1 + (1 + getWeight l + getWeight rl) + getWeight rr) rr := rfl



@[simp] theorem getDepth_nil : getDepth (.nil : Tree K V) = 0 := rfl

@[simp] theorem getDepth_node (l : Tree K V) (k v d w r) :
    getDepth (.node l k v d w r) = d := rfl

@[simp] theorem getWeight_nil : getWeight (.nil : Tree K V) = 0 := rfl

@[simp] theorem getWeight_node (l : Tree K V) (k v d w r) :
    getWeight (.node l k v d w r) = w := rfl

theorem fix_spec [LinearOrder K] (l : Tree K V) (k : K) (v : V) (d w : Nat) (r : Tree K V)
    (hl : WF l) (hr : WF r)
    (hkl : ∀ x ∈ keys l, x < k) (hkr : ∀ x ∈ keys r, k < x)
    (hd1 : realDepth l ≤ realDepth r + 2) (hd2 : realDepth r ≤ realDepth l + 2) :
    WF (fix (.node l k v d w r)) ∧
    keys (fix (.node l k v d w r)) = keys l ++ k :: keys r ∧
    realSize (fix (.node l k v d w r)) = 1 + realSize l + realSize r ∧
    max (realDepth l) (realDepth r) ≤ realDepth (fix (.node l k v d w r)) ∧
    realDepth (fix (.node l k v d w r)) ≤ 1 + max (realDepth l) (realDepth r) ∧
    (realDepth l ≤ realDepth r + 1 → realDepth r ≤ realDepth l + 1 →
      realDepth (fix (.node l k v d w r)) = 1 + max (realDepth l) (realDepth r)) := by
  obtain ⟨hOl, hBl, hCl⟩ := hl
  obtain ⟨hOr, hBr, hCr⟩ := hr
  rw [fix_node_eq]
  simp only [cache_depth hCl, cache_depth hCr, cache_weight hCl, cache_weight hCr]
  by_cases h1 : realDepth l > realDepth r + 1
  · rw [if_pos h1]
    have hpos : 0 < realDepth l := by omega
    obtain ⟨ll, lk, lv, ld, lw, lr, rfl⟩ := realDepth_pos_node hpos
    obtain ⟨hOll, hOlr, hkll, hklr⟩ := ordered_node.mp hOl
    obtain ⟨hBll, hBlr, hbl1, hbl2⟩ := bal_node.mp hBl
    obtain ⟨hCll, hClr, hcld, hclw⟩ := cacheOk_node.mp hCl
    rw [fixLeft_node_eq]
    simp only [getDepth_node, cache_depth hCll, cache_depth hClr]
    have hlk_lt_k : lk < k := hkl lk (by simp)
    by_cases h2 : realDepth lr > realDepth ll
    · -- left child is right-heavy: double rotation
      rw [if_pos h2]
      have hpos2 : 0 < realDepth lr := by omega
      obtain ⟨lrl, lrk, lrv, lrd, lrw, lrr, rfl⟩ := realDepth_pos_node hpos2
      obtain ⟨hOlrl, hOlrr, hklrl, hklrr⟩ := ordered_node.mp hOlr
      obtain ⟨hBlrl, hBlrr, hblr1, hblr2⟩ := bal_node.mp hBlr
      obtain ⟨hClrl, hClrr, hclrd, hclrw⟩ := cacheOk_node.mp hClr
      rw [rotateLeft_eq, rotateRight_eq]
      simp only [getDepth_node, getWeight_node, cache_depth hCll, cache_depth hClrl,
        cache_depth hClrr, cache_depth hCr, cache_weight hCll, cache_weight hClrl,
        cache_weight hClrr, cache_weight hCr]
      simp only [realDepth_node] at h1 h2 hd1 hd2 hbl1 hbl2
      have hlrk_lt_k : lrk < k := hkl lrk (by simp)
      have hlk_lt_lrk : lk < lrk := hklr lrk (by simp)
      refine ⟨?_, ?_, ?_, ?_, ?_, ?_⟩
      · refine wf_node_iff.mpr ⟨?_, ?_, ?_, ?_, ?_, ?_, ?_, ?_⟩
        · exact wf_node_iff.mpr ⟨⟨hOll, hBll, hCll⟩, ⟨hOlrl, hBlrl, hClrl⟩, hkll,
            (fun x hx => hklr x (by simp [hx])), by omega, by omega, rfl, rfl⟩
        · refine wf_node_iff.mpr ⟨⟨hOlrr, hBlrr, hClrr⟩, ⟨hOr, hBr, hCr⟩, ?_, hkr,
            by omega, by omega, rfl, rfl⟩
          exact fun x hx => hkl x (by simp [hx])
        · intro x hx
          simp only [keys_node, List.mem_append, List.mem_cons] at hx
          rcases hx with hx | hx | hx
          · exact lt_trans (hkll x hx) hlk_lt_lrk
          · exact hx ▸ hlk_lt_lrk
          · exact hklrl x hx
        · intro x hx
          simp only [keys_node, List.mem_append, List.mem_cons] at hx
          rcases hx with hx | hx | hx
          · exact hklrr x hx
          · exact hx ▸ hlrk_lt_k
          · exact lt_trans hlrk_lt_k (hkr x hx)
        · simp only [realDepth_node]; omega
        · simp only [realDepth_node]; omega
        · simp only [realDepth_node]
        · simp only [realSize_node]
      · simp only [keys_node, List.append_assoc, List.cons_append]
      · simp only [realSize_node]; omega
      · simp only [realDepth_node]; omega
      · simp only [realDepth_node]; omega
      · simp only [realDepth_node]; intro hc1 hc2; omega
    · -- left child is left-heavy or even: single right rotation
      rw [if_neg h2, rotateRight_eq]
      simp only [getDepth_node, getWeight_node, cache_depth hCll, cache_depth hClr,
        cache_depth hCr, cache_weight hCll, cache_weight hClr, cache_weight hCr]
      simp only [realDepth_node] at h1 hd1 hd2 hbl1 hbl2
      refine ⟨?_, ?_, ?_, ?_, ?_, ?_⟩
      · refine wf_node_iff.mpr ⟨⟨hOll, hBll, hCll⟩, ?_, hkll, ?_,
          by simp only [realDepth_node]; omega, by simp only [realDepth_node]; omega,
          by simp only [realDepth_node], by simp only [realSize_node]⟩
        · refine wf_node_iff.mpr ⟨⟨hOlr, hBlr, hClr⟩, ⟨hOr, hBr, hCr⟩, ?_, hkr,
            by omega, by omega, rfl, rfl⟩
          exact fun x hx => hkl x (by simp [hx])
        · intro x hx
          simp only [keys_node, List.mem_append, List.mem_cons] at hx
          rcases hx with hx | hx | hx
          · exact hklr x hx
          · exact hx ▸ hlk_lt_k
          · exact lt_trans hlk_lt_k (hkr x hx)
      · simp only [keys_node, List.append_assoc, List.cons_append]
      · simp only [realSize_node]; omega
      · simp only [realDepth_node]; omega
      · simp only [realDepth_node]; omega
      · simp only [realDepth_node]; intro hc1 hc2; omega
  · rw [if_neg h1]
    by_cases h3 : realDepth r > realDepth l + 1
    · rw [if_pos h3]
      have hpos : 0 < realDepth r := by omega
      obtain ⟨rl, rk, rv, rd, rw2, rr, rfl⟩ := realDepth_pos_node hpos
      obtain ⟨hOrl, hOrr, hkrl, hkrr⟩ := ordered_node.mp hOr
      obtain ⟨hBrl, hBrr, hbr1, hbr2⟩ := bal_node.mp hBr
      obtain ⟨hCrl, hCrr, hcrd, hcrw⟩ := cacheOk_node.mp hCr
      rw [fixRight_node_eq]
      simp only [getDepth_node, cache_depth hCrl, cache_depth hCrr]
      have hk_lt_rk : k < rk := hkr rk (by simp)
      by_cases h2 : realDepth rl > realDepth rr
      · -- right child is left-heavy: double rotation
        rw [if_pos h2]
        have hpos2 : 0 < realDepth rl := by omega
        obtain ⟨rll, rlk, rlv, rld, rlw, rlr, rfl⟩ := realDepth_pos_node hpos2
        obtain ⟨hOrll, hOrlr, hkrll, hkrlr⟩ := ordered_node.mp hOrl
        obtain ⟨hBrll, hBrlr, hbrl1, hbrl2⟩ := bal_node.mp hBrl
        obtain ⟨hCrll, hCrlr, hcrld, hcrlw⟩ := cacheOk_node.mp hCrl
        rw [rotateRight_eq, rotateLeft_eq]
        simp only [getDepth_node, getWeight_node, cache_depth hCl, cache_depth hCrll,
          cache_depth hCrlr, cache_depth hCrr, cache_weight hCl, cache_weight hCrll,
          cache_weight hCrlr, cache_weight hCrr]
        simp only [realDepth_node] at h3 h2 hd1 hd2 hbr1 hbr2
        have hk_lt_rlk : k < rlk := hkr rlk (by simp)
        have hrlk_lt_rk : rlk < rk := hkrl rlk (by simp)
        refine ⟨?_, ?_, ?_, ?_, ?_, ?_⟩
        · refine wf_node_iff.mpr ⟨?_, ?_, ?_, ?_, ?_, ?_, ?_, ?_⟩
          · refine wf_node_iff.mpr ⟨⟨hOl, hBl, hCl⟩, ⟨hOrll, hBrll, hCrll⟩, hkl, ?_,
              by omega, by omega, rfl, rfl⟩
            exact fun x hx => hkr x (by simp [hx])
          · refine wf_node_iff.mpr ⟨⟨hOrlr, hBrlr, hCrlr⟩, ⟨hOrr, hBrr, hCrr⟩, ?_, hkrr,
              by omega, by omega, rfl, rfl⟩
            exact fun x hx => hkrl x (by simp [hx])
          · intro x hx
            simp only [keys_node, List.mem_append, List.mem_cons] at hx
            rcases hx with hx | hx | hx
            · exact lt_trans (hkl x hx) hk_lt_rlk
            · exact hx ▸ hk_lt_rlk
            · exact hkrll x hx
          · intro x hx
            simp only [keys_node, List.mem_append, List.mem_cons] at hx
            rcases hx with hx | hx | hx
            · exact hkrlr x hx
            · exact hx ▸ hrlk_lt_rk
            · exact lt_trans hrlk_lt_rk (hkrr x hx)
          · simp only [realDepth_node]; omega
          · simp only [realDepth_node]; omega
          · simp only [realDepth_node]
          · simp only [realSize_node]
        · simp only [keys_node, List.append_assoc, List.cons_append]
        · simp only [realSize_node]; omega
        · simp only [realDepth_node]; omega
        · simp only [realDepth_node]; omega
        · simp only [realDepth_node]; intro hc1 hc2; omega
      · -- right child is right-heavy or even: single left rotation
        rw [if_neg h2, rotateLeft_eq]
        simp only [getDepth_node, getWeight_node, cache_depth hCl, cache_depth hCrl,
          cache_depth hCrr, cache_weight hCl, cache_weight hCrl, cache_weight hCrr]
        simp only [realDepth_node] at h3 hd1 hd2 hbr1 hbr2
        refine ⟨?_, ?_, ?_, ?_, ?_, ?_⟩
        · refine wf_node_iff.mpr ⟨?_, ⟨hOrr, hBrr, hCrr⟩, ?_, hkrr,
            by simp only [realDepth_node]; omega, by simp only [realDepth_node]; omega,
            by simp only [realDepth_node], by simp only [realSize_node]⟩
          · refine wf_node_iff.mpr ⟨⟨hOl, hBl, hCl⟩, ⟨hOrl, hBrl, hCrl⟩, hkl, ?_,
              by omega, by omega, rfl, rfl⟩
            exact fun x hx => hkr x (by simp [hx])
          · intro x hx
            simp only [keys_node, List.mem_append, List.mem_cons] at hx
            rcases hx with hx | hx | hx
            · exact lt_trans (hkl x hx) hk_lt_rk
            · exact hx ▸ hk_lt_rk
            · exact hkrl x hx
        · simp only [keys_node, List.append_assoc, List.cons_append]
        · simp only [realSize_node]; omega
        · simp only [realDepth_node]; omega
        · simp only [realDepth_node]; omega
        · simp only [realDepth_node]; intro hc1 hc2; omega
    · rw [if_neg h3]
      refine ⟨wf_node_iff.mpr ⟨⟨hOl, hBl, hCl⟩, ⟨hOr, hBr, hCr⟩, hkl, hkr, by omega,
        by omega, rfl, rfl⟩, rfl, ?_, ?_, ?_, ?_⟩
      · simp only [realSize_node]
      · simp only [realDepth_node]; omega
      · simp only [realDepth_node]; omega
      · intro hc1 hc2; simp only [realDepth_node]

end AVL
namespace AVL

variable {K V : Type}

theorem insert_nil_eq [LinearOrder K] (k : K) (v : V) :
    insert (.nil : Tree K V) k v = .node .nil k v 1 1 .nil := rfl

theorem insert_node_eq [LinearOrder K] (l : Tree K V) (k2 : K) (v2 : V) (d w r k v) :
    insert (.node l k2 v2 d w r) k v =
      (if k < k2 then fix (.node (insert l k v) k2 v2 d w r)
       else if k2 < k then fix (.node l k2 v2 d w (insert r k v))
       else .node l k2 v2 d w r) := rfl

theorem insert_spec [LinearOrder K] (t : Tree K V) (k : K) (v : V) (h : WF t) :
    WF (insert t k v) ∧
    (∀ x, x ∈ keys (insert t k v) ↔ x ∈ keys t ∨ x = k) ∧
    realDepth t ≤ realDepth (insert t k v) ∧
    realDepth (insert t k v) ≤ realDepth t + 1 := by
  induction t with
  | nil =>
      refine ⟨wf_node_iff.mpr ⟨wf_nil, wf_nil, by simp, by simp, by simp, by simp,
        by simp, by simp⟩, ?_, by simp [insert_nil_eq], by simp [insert_nil_eq]⟩
      intro x; simp [insert_nil_eq]
  | node l k2 v2 d w r ihl ihr =>
      obtain ⟨hWl, hWr, hkl, hkr, hb1, hb2, hd, hw⟩ := wf_node_iff.mp h
      rcases lt_trichotomy k k2 with hlt | heq | hgt
      · rw [insert_node_eq, if_pos hlt]
        obtain ⟨ih1, ih2, ih3, ih4⟩ := ihl hWl
        have hkl2 : ∀ x ∈ keys (insert l k v), x < k2 := by
          intro x hx
          rcases (ih2 x).mp hx with hx2 | hx2
          · exact hkl x hx2
          · exact hx2 ▸ hlt
        obtain ⟨hs1, hs2, hs3, hs4, hs5, hs6⟩ :=
          fix_spec (insert l k v) k2 v2 d w r ih1 hWr hkl2 hkr (by omega) (by omega)
        refine ⟨hs1, ?_, ?_, ?_⟩
        · intro x
          rw [hs2]
          simp only [keys_node, List.mem_append, List.mem_cons, ih2 x]
          tauto
        · by_cases hc : realDepth (insert l k v) ≤ realDepth r + 1 ∧
              realDepth r ≤ realDepth (insert l k v) + 1
          · have := hs6 hc.1 hc.2
            simp only [realDepth_node]; omega
          · rw [not_and_or] at hc
            simp only [realDepth_node]; omega
        · simp only [realDepth_node]; omega
      · rw [insert_node_eq, if_neg (not_lt.mpr heq.ge), if_neg (not_lt.mpr heq.le)]
        refine ⟨h, ?_, le_refl _, Nat.le_succ _⟩
        intro x
        constructor
        · exact fun hx => Or.inl hx
        · rintro (hx | rfl)
          · exact hx
          · simp [heq]
      · rw [insert_node_eq, if_neg (not_lt.mpr hgt.le), if_pos hgt]
        obtain ⟨ih1, ih2, ih3, ih4⟩ := ihr hWr
        have hkr2 : ∀ x ∈ keys (insert r k v), k2 < x := by
          intro x hx
          rcases (ih2 x).mp hx with hx2 | hx2
          · exact hkr x hx2
          · exact hx2 ▸ hgt
        obtain ⟨hs1, hs2, hs3, hs4, hs5, hs6⟩ :=
          fix_spec l k2 v2 d w (insert r k v) hWl ih1 hkl hkr2 (by omega) (by omega)
        refine ⟨hs1, ?_, ?_, ?_⟩
        · intro x
          rw [hs2]
          simp only [keys_node, List.mem_append, List.mem_cons, ih2 x]
          tauto
        · by_cases hc : realDepth l ≤ realDepth (insert r k v) + 1 ∧
              realDepth (insert r k v) ≤ realDepth l + 1
          · have := hs6 hc.1 hc.2
            simp only [realDepth_node]; omega
          · rw [not_and_or] at hc
            simp only [realDepth_node]; omega
        · simp only [realDepth_node]; omega

end AVL
namespace AVL

variable {K V : Type}

theorem remove_lt_eq [LinearOrder K] (l : Tree K V) (k2 : K) (v2 : V) (d w : Nat)
    (r : Tree K V) (k : K) (hlt : k < k2) :
    remove (.node l k2 v2 d w r) k = fix (.node (remove l k) k2 v2 d w r) := by
  rw [remove.eq_def]
  dsimp only
  rw [if_pos hlt]

theorem remove_gt_eq [LinearOrder K] (l : Tree K V) (k2 : K) (v2 : V) (d w : Nat)
    (r : Tree K V) (k : K) (h1 : ¬ k < k2) (hgt : k2 < k) :
    remove (.node l k2 v2 d w r) k = fix (.node l k2 v2 d w (remove r k)) := by
  rw [remove.eq_def]
  dsimp only
  rw [if_neg h1, if_pos hgt]

theorem remove_found_nil_left [LinearOrder K] (k2 : K) (v2 : V) (d w : Nat)
    (r : Tree K V) (k : K) (h1 : ¬ k < k2) (h2 : ¬ k2 < k) :
    remove (.node .nil k2 v2 d w r) k = r := by
  rw [remove.eq_def]
  dsimp only
  rw [if_neg h1, if_neg h2]
  cases r <;> rfl

theorem remove_found_nil_right [LinearOrder K] (ll : Tree K V) (lk : K) (lv : V)
    (ld2 lw2 : Nat) (lr : Tree K V) (k2 : K) (v2 : V) (d w : Nat) (k : K)
    (h1 : ¬ k < k2) (h2 : ¬ k2 < k) :
    remove (.node (.node ll lk lv ld2 lw2 lr) k2 v2 d w .nil) k =
      .node ll lk lv ld2 lw2 lr := by
  rw [remove.eq_def]
  dsimp only
  rw [if_neg h1, if_neg h2]

theorem remove_found_both [LinearOrder K] (ll : Tree K V) (lk : K) (lv : V)
    (ld2 lw2 : Nat) (lr : Tree K V) (k2 : K) (v2 : V) (d w : Nat)
    (rl : Tree K V) (rk : K) (rv : V) (rd2 rw2 : Nat) (rr : Tree K V) (k : K)
    (h1 : ¬ k < k2) (h2 : ¬ k2 < k) :
    remove (.node (.node ll lk lv ld2 lw2 lr) k2 v2 d w
        (.node rl rk rv rd2 rw2 rr)) k =
      fix (.node (.node ll lk lv ld2 lw2 lr) (leftmost rl rk rv).1
        (leftmost rl rk rv).2 d w
        (remove (.node rl rk rv rd2 rw2 rr) (leftmost rl rk rv).1)) := by
  rw [remove.eq_def]
  dsimp only
  rw [if_neg h1, if_neg h2]

theorem leftmost_mem (l : Tree K V) (k : K) (v : V) :
    (leftmost l k v).1 ∈ keys l ∨ (leftmost l k v).1 = k := by
  induction l generalizing k v with
  | nil => simp [leftmost]
  | node ll lk lv ld lw lr ihl ihr =>
      rw [leftmost]
      rcases ihl lk lv with h | h
      · left; simp only [keys_node, List.mem_append, List.mem_cons]; exact Or.inl h
      · left; simp only [keys_node, List.mem_append, List.mem_cons]
        exact Or.inr (Or.inl h)

theorem leftmost_min [LinearOrder K] (l : Tree K V) (k : K) (v : V) (d w : Nat)
    (r : Tree K V) (hO : Ordered (.node l k v d w r)) :
    ∀ x ∈ keys (.node l k v d w r), (leftmost l k v).1 ≤ x := by
  induction l generalizing k v d w r with
  | nil =>
      intro x hx
      rw [leftmost]
      obtain ⟨hOl, hOr, hkl, hkr⟩ := ordered_node.mp hO
      simp only [keys_node, keys_nil, List.nil_append, List.mem_cons] at hx
      rcases hx with rfl | hx
      · exact le_refl x
      · exact (hkr x hx).le
  | node ll lk lv ld lw lr ihl ihr =>
      intro x hx
      rw [leftmost]
      obtain ⟨hOl, hOr, hkl, hkr⟩ := ordered_node.mp hO
      have hmin := ihl lk lv ld lw lr hOl
      simp only [keys_node, List.mem_append, List.mem_cons] at hx
      rcases hx with hx | rfl | hx
      · exact hmin x (by simpa using hx)
      · have hlm : (leftmost ll lk lv).1 ≤ lk := hmin lk (by simp)
        have hlk : lk < x := hkl lk (by simp)
        exact le_trans hlm hlk.le
      · have hlm : (leftmost ll lk lv).1 ≤ lk := hmin lk (by simp)
        have hlk : lk < k := hkl lk (by simp)
        exact le_trans hlm (le_trans hlk.le (hkr x hx).le)

end AVL
namespace AVL

variable {K V : Type}

theorem remove_spec [LinearOrder K] (t : Tree K V) (h : WF t) (k : K) :
    WF (remove t k) ∧
    (∀ x, x ∈ keys (remove t k) ↔ x ∈ keys t ∧ x ≠ k) ∧
    realDepth t ≤ realDepth (remove t k) + 1 ∧
    realDepth (remove t k) ≤ realDepth t := by
  induction t generalizing k with
  | nil =>
      refine ⟨wf_nil, ?_, by simp [remove], by simp [remove]⟩
      intro x; simp [remove]
  | node l k2 v2 d w r ihl ihr =>
      obtain ⟨hWl, hWr, hkl, hkr, hb1, hb2, hd, hw⟩ := wf_node_iff.mp h
      rcases lt_trichotomy k k2 with hlt | heq | hgt
      · rw [remove_lt_eq l k2 v2 d w r k hlt]
        obtain ⟨ih1, ih2, ih3, ih4⟩ := ihl hWl k
        have hkl2 : ∀ x ∈ keys (remove l k), x < k2 :=
          fun x hx => hkl x ((ih2 x).mp hx).1
        obtain ⟨hs1, hs2, hs3, hs4, hs5, hs6⟩ :=
          fix_spec (remove l k) k2 v2 d w r ih1 hWr hkl2 hkr (by omega) (by omega)
        refine ⟨hs1, ?_, ?_, ?_⟩
        · intro x
          rw [hs2]
          simp only [keys_node, List.mem_append, List.mem_cons, ih2 x]
          have e1 : x = k2 → x ≠ k := fun hx => hx ▸ hlt.ne'
          have e2 : x ∈ keys r → x ≠ k := fun hx => (lt_trans hlt (hkr x hx)).ne'
          constructor
          · rintro (⟨hx, hne⟩ | rfl | hx)
            · exact ⟨Or.inl hx, hne⟩
            · exact ⟨Or.inr (Or.inl rfl), e1 rfl⟩
            · exact ⟨Or.inr (Or.inr hx), e2 hx⟩
          · rintro ⟨hx | rfl | hx, hne⟩
            · exact Or.inl ⟨hx, hne⟩
            · exact Or.inr (Or.inl rfl)
            · exact Or.inr (Or.inr hx)
        · by_cases hc : realDepth (remove l k) ≤ realDepth r + 1 ∧
              realDepth r ≤ realDepth (remove l k) + 1
          · have := hs6 hc.1 hc.2
            simp only [realDepth_node]; omega
          · rw [not_and_or] at hc
            simp only [realDepth_node]; omega
        · simp only [realDepth_node]; omega
      · subst heq
        cases l with
        | nil =>
            rw [remove_found_nil_left k v2 d w r k (lt_irrefl k) (lt_irrefl k)]
            refine ⟨hWr, ?_, by simp only [realDepth_node, realDepth_nil]; omega,
              by simp only [realDepth_node]; omega⟩
            intro x
            simp only [keys_node, keys_nil, List.nil_append, List.mem_cons]
            have e1 : x ∈ keys r → x ≠ k := fun hx => (hkr x hx).ne'
            constructor
            · exact fun hx => ⟨Or.inr hx, e1 hx⟩
            · rintro ⟨rfl | hx, hne⟩
              · exact absurd rfl hne
              · exact hx
        | node ll lk lv ld2 lw2 lr =>
          cases r with
          | nil =>
              rw [remove_found_nil_right ll lk lv ld2 lw2 lr k v2 d w k
                (lt_irrefl k) (lt_irrefl k)]
              set l0 := Tree.node ll lk lv ld2 lw2 lr with hl0
              refine ⟨hWl, ?_, by rw [hl0]; simp only [realDepth_node, realDepth_nil]; omega,
                by rw [hl0]; simp only [realDepth_node]; omega⟩
              intro x
              simp only [keys_node, keys_nil, List.mem_append, List.mem_cons,
                List.not_mem_nil, or_false]
              have e1 : x ∈ keys l0 → x ≠ k := fun hx => (hkl x hx).ne
              constructor
              · exact fun hx => ⟨Or.inl hx, e1 hx⟩
              · rintro ⟨hx | rfl, hne⟩
                · exact hx
                · exact absurd rfl hne
          | node rl rk rv rd2 rw2 rr =>
              rw [remove_found_both ll lk lv ld2 lw2 lr k v2 d w rl rk rv rd2 rw2 rr k
                (lt_irrefl k) (lt_irrefl k)]
              set l0 := Tree.node ll lk lv ld2 lw2 lr with hl0
              set r0 := Tree.node rl rk rv rd2 rw2 rr with hr0
              set s1 := (leftmost rl rk rv).1 with hs1def
              have hsmem : s1 ∈ keys r0 := by
                rcases leftmost_mem rl rk rv with hm | hm
                · rw [hr0]; simp only [keys_node, List.mem_append, List.mem_cons]
                  exact Or.inl hm
                · rw [hr0]; simp only [keys_node, List.mem_append, List.mem_cons]
                  exact Or.inr (Or.inl hm)
              have hsmin : ∀ x ∈ keys r0, s1 ≤ x :=
                leftmost_min rl rk rv rd2 rw2 rr hWr.1
              have hk2s : k < s1 := hkr s1 hsmem
              obtain ⟨ih1, ih2, ih3, ih4⟩ := ihr hWr s1
              have hkl2 : ∀ x ∈ keys l0, x < s1 :=
                fun x hx => lt_trans (hkl x hx) hk2s
              have hkr2 : ∀ x ∈ keys (remove r0 s1), s1 < x := by
                intro x hx
                obtain ⟨hx1, hx2⟩ := (ih2 x).mp hx
                exact lt_of_le_of_ne (hsmin x hx1) (Ne.symm hx2)
              obtain ⟨hf1, hf2, hf3, hf4, hf5, hf6⟩ :=
                fix_spec l0 s1 (leftmost rl rk rv).2 d w (remove r0 s1) hWl ih1
                  hkl2 hkr2 (by omega) (by omega)
              refine ⟨hf1, ?_, ?_, ?_⟩
              · intro x
                rw [hf2]
                simp only [keys_node, List.mem_append, List.mem_cons, ih2 x]
                have e1 : x ∈ keys l0 → x ≠ k := fun hx => (hkl x hx).ne
                have e2 : x = s1 → x ≠ k := fun hx => hx ▸ hk2s.ne'
                have e3 : x ∈ keys r0 → x ≠ k := fun hx => (hkr x hx).ne'
                have e4 : x = s1 → x ∈ keys r0 := fun hx => hx ▸ hsmem
                constructor
                · rintro (hx | rfl | ⟨hx1, hx2⟩)
                  · exact ⟨Or.inl hx, e1 hx⟩
                  · exact ⟨Or.inr (Or.inr hsmem), e2 rfl⟩
                  · exact ⟨Or.inr (Or.inr hx1), e3 hx1⟩
                · rintro ⟨hx | rfl | hx, hne⟩
                  · exact Or.inl hx
                  · exact absurd rfl hne
                  · by_cases hxs : x = s1
                    · exact Or.inr (Or.inl hxs)
                    · exact Or.inr (Or.inr ⟨hx, hxs⟩)
              · by_cases hc : realDepth l0 ≤ realDepth (remove r0 s1) + 1 ∧
                    realDepth (remove r0 s1) ≤ realDepth l0 + 1
                · have := hf6 hc.1 hc.2
                  simp only [realDepth_node]; omega
                · rw [not_and_or] at hc
                  simp only [realDepth_node]; omega
              · simp only [realDepth_node]; omega
      · rw [remove_gt_eq l k2 v2 d w r k (not_lt.mpr hgt.le) hgt]
        obtain ⟨ih1, ih2, ih3, ih4⟩ := ihr hWr k
        have hkr2 : ∀ x ∈ keys (remove r k), k2 < x :=
          fun x hx => hkr x ((ih2 x).mp hx).1
        obtain ⟨hs1, hs2, hs3, hs4, hs5, hs6⟩ :=
          fix_spec l k2 v2 d w (remove r k) hWl ih1 hkl hkr2 (by omega) (by omega)
        refine ⟨hs1, ?_, ?_, ?_⟩
        · intro x
          rw [hs2]
          simp only [keys_node, List.mem_append, List.mem_cons, ih2 x]
          have e1 : x = k2 → x ≠ k := fun hx => hx ▸ hgt.ne
          have e2 : x ∈ keys l → x ≠ k := fun hx => (lt_trans (hkl x hx) hgt).ne
          constructor
          · rintro (hx | rfl | ⟨hx, hne⟩)
            · exact ⟨Or.inl hx, e2 hx⟩
            · exact ⟨Or.inr (Or.inl rfl), e1 rfl⟩
            · exact ⟨Or.inr (Or.inr hx), hne⟩
          · rintro ⟨hx | rfl | hx, hne⟩
            · exact Or.inl hx
            · exact Or.inr (Or.inl rfl)
            · exact Or.inr (Or.inr ⟨hx, hne⟩)
        · by_cases hc : realDepth l ≤ realDepth (remove r k) + 1 ∧
              realDepth (remove r k) ≤ realDepth l + 1
          · have := hs6 hc.1 hc.2
            simp only [realDepth_node]; omega
          · rw [not_and_or] at hc
            simp only [realDepth_node]; omega
        · simp only [realDepth_node]; omega

end AVL
namespace AVL

variable {K V : Type}

theorem fix_id [LinearOrder K] {l : Tree K V} {k : K} {v : V} {d w : Nat} {r : Tree K V}
    (h : WF (.node l k v d w r)) : fix (.node l k v d w r) = .node l k v d w r := by
  obtain ⟨hWl, hWr, hkl, hkr, hb1, hb2, hd, hw⟩ := wf_node_iff.mp h
  rw [fix_node_eq, cache_depth hWl.2.2, cache_depth hWr.2.2,
    cache_weight hWl.2.2, cache_weight hWr.2.2,
    if_neg (by omega), if_neg (by omega), hd, hw]

theorem insert_dup [LinearOrder K] (t : Tree K V) (k : K) (v : V) (h : WF t)
    (hk : k ∈ keys t) : insert t k v = t := by
  induction t with
  | nil => simp at hk
  | node l k2 v2 d w r ihl ihr =>
      obtain ⟨hWl, hWr, hkl, hkr, hb1, hb2, hd, hw⟩ := wf_node_iff.mp h
      rcases lt_trichotomy k k2 with hlt | heq | hgt
      · have hkmem : k ∈ keys l := by
          simp only [keys_node, List.mem_append, List.mem_cons] at hk
          rcases hk with hk | rfl | hk
          · exact hk
          · exact absurd hlt (lt_irrefl k)
          · exact absurd (lt_trans hlt (hkr k hk)) (lt_irrefl k)
        rw [insert_node_eq, if_pos hlt, ihl hWl hkmem, fix_id h]
      · rw [insert_node_eq, if_neg (not_lt.mpr heq.ge), if_neg (not_lt.mpr heq.le)]
      · have hkmem : k ∈ keys r := by
          simp only [keys_node, List.mem_append, List.mem_cons] at hk
          rcases hk with hk | rfl | hk
          · exact absurd (lt_trans hgt (hkl k hk)) (lt_irrefl k2)
          · exact absurd hgt (lt_irrefl k)
          · exact hk
        rw [insert_node_eq, if_neg (not_lt.mpr hgt.le), if_pos hgt, ihr hWr hkmem,
          fix_id h]

theorem keys_setValue [LinearOrder K] (t : Tree K V) (k : K) (v : V) :
    keys (setValue t k v) = keys t := by
  induction t with
  | nil => rfl
  | node l k2 v2 d w r ihl ihr =>
      rw [setValue]
      split_ifs with h1 h2
      · rfl
      · simp only [keys_node, ihl]
      · simp only [keys_node, ihr]

theorem realDepth_setValue [LinearOrder K] (t : Tree K V) (k : K) (v : V) :
    realDepth (setValue t k v) = realDepth t := by
  induction t with
  | nil => rfl
  | node l k2 v2 d w r ihl ihr =>
      rw [setValue]
      split_ifs with h1 h2
      · rfl
      · simp only [realDepth_node, ihl]
      · simp only [realDepth_node, ihr]

theorem realSize_setValue [LinearOrder K] (t : Tree K V) (k : K) (v : V) :
    realSize (setValue t k v) = realSize t := by
  induction t with
  | nil => rfl
  | node l k2 v2 d w r ihl ihr =>
      rw [setValue]
      split_ifs with h1 h2
      · rfl
      · simp only [realSize_node, ihl]
      · simp only [realSize_node, ihr]

theorem wf_setValue [LinearOrder K] (t : Tree K V) (k : K) (v : V) (h : WF t) :
    WF (setValue t k v) := by
  induction t with
  | nil => exact wf_nil
  | node l k2 v2 d w r ihl ihr =>
      obtain ⟨hWl, hWr, hkl, hkr, hb1, hb2, hd, hw⟩ := wf_node_iff.mp h
      rw [setValue]
      split_ifs with h1 h2
      · exact wf_node_iff.mpr ⟨hWl, hWr, hkl, hkr, hb1, hb2, hd, hw⟩
      · exact wf_node_iff.mpr ⟨ihl hWl, hWr,
          (by rw [keys_setValue]; exact hkl), hkr,
          (by rw [realDepth_setValue]; exact hb1),
          (by rw [realDepth_setValue]; exact hb2),
          (by rw [realDepth_setValue]; exact hd),
          (by rw [realSize_setValue]; exact hw)⟩
      · exact wf_node_iff.mpr ⟨hWl, ihr hWr, hkl,
          (by rw [keys_setValue]; exact hkr),
          (by rw [realDepth_setValue]; exact hb1),
          (by rw [realDepth_setValue]; exact hb2),
          (by rw [realDepth_setValue]; exact hd),
          (by rw [realSize_setValue]; exact hw)⟩

theorem search_isSome_iff [LinearOrder K] (t : Tree K V) (k : K) (h : Ordered t) :
    (search t k).isSome ↔ k ∈ keys t := by
  induction t with
  | nil => simp [search]
  | node l k2 v2 d w r ihl ihr =>
      obtain ⟨hOl, hOr, hkl, hkr⟩ := ordered_node.mp h
      rw [search]
      split_ifs with h1 h2
      · simp [h1]
      · rw [ihl hOl]
        simp only [keys_node, List.mem_append, List.mem_cons]
        constructor
        · exact fun hx => Or.inl hx
        · rintro (hx | rfl | hx)
          · exact hx
          · exact absurd h2 (lt_irrefl k)
          · exact absurd (lt_trans h2 (hkr k hx)) (lt_irrefl k)
      · rw [ihr hOr]
        simp only [keys_node, List.mem_append, List.mem_cons]
        have h3 : k2 < k := by
          rcases lt_trichotomy k k2 with hc | hc | hc
          · exact absurd hc h2
          · exact absurd hc h1
          · exact hc
        constructor
        · exact fun hx => Or.inr (Or.inr hx)
        · rintro (hx | rfl | hx)
          · exact absurd (lt_trans h3 (hkl k hx)) (lt_irrefl k2)
          · exact absurd h3 (lt_irrefl k)
          · exact hx

theorem ordered_nodup [LinearOrder K] (t : Tree K V) (h : Ordered t) :
    (keys t).Nodup := by
  induction t with
  | nil => simp
  | node l k2 v2 d w r ihl ihr =>
      obtain ⟨hOl, hOr, hkl, hkr⟩ := ordered_node.mp h
      simp only [keys_node]
      refine List.Nodup.append (ihl hOl) ?_ ?_
      · exact List.nodup_cons.mpr
          ⟨fun hc => absurd (hkr k2 hc) (lt_irrefl k2), ihr hOr⟩
      · intro x hx hy
        simp only [List.mem_cons] at hy
        rcases hy with rfl | hy
        · exact absurd (hkl x hx) (lt_irrefl x)
        · exact absurd (lt_trans (hkl x hx) (hkr x hy)) (lt_irrefl x)

theorem ordered_count [LinearOrder K] (t : Tree K V) (h : Ordered t) (k : K) :
    (keys t).count k ≤ 1 :=
  List.nodup_iff_count_le_one.mp (ordered_nodup t h) k

theorem wf_set [LinearOrder K] (t : Tree K V) (k : K) (v : V) (h : WF t) :
    WF (set t k v) := by
  rw [set]
  cases hs : search t k with
  | some p => exact wf_setValue t k v h
  | none => exact (insert_spec t k v h).1

theorem wf_del [LinearOrder K] (t : Tree K V) (k : K) (h : WF t) : WF (del t k) := by
  cases t with
  | nil => exact wf_nil
  | node l k2 v2 d w r => exact (remove_spec _ h k).1

theorem wf_foldl [LinearOrder K] (ops : List (OpA K V)) (t : Tree K V) (h : WF t) :
    WF (ops.foldl (fun t op =>
      match op with
      | .setA k v => set t k v
      | .delA k => del t k) t) := by
  induction ops generalizing t with
  | nil => simpa using h
  | cons op rest ih =>
      cases op with
      | setA k v => exact ih _ (wf_set t k v h)
      | delA k => exact ih _ (wf_del t k h)

theorem wf_runOps [LinearOrder K] (ops : List (OpA K V)) : WF (runOps ops) := by
  rw [runOps]
  exact wf_foldl ops .nil wf_nil

end AVL
namespace Wire

theorem le32_cons4 (b0 b1 b2 b3 : Nat) (rest : Bytes) :
    le32 (b0 :: b1 :: b2 :: b3 :: rest) =
      b0 + b1 * 256 + b2 * 65536 + b3 * 16777216 := rfl

theorem le32enc_eq_of (b0 b1 b2 b3 n : Nat) (h0 : b0 < 256) (h1 : b1 < 256)
    (h2 : b2 < 256) (h3 : b3 < 256)
    (hn : n = b0 + b1 * 256 + b2 * 65536 + b3 * 16777216) :
    le32enc n = [b0, b1, b2, b3] := by
  simp only [le32enc, List.cons.injEq, and_true]
  refine ⟨?_, ?_, ?_, ?_⟩ <;> omega

theorem le32_le32enc (n : Nat) (h : n < 4294967296) (rest : Bytes) :
    le32 (le32enc n ++ rest) = n := by
  simp only [le32enc, List.cons_append, List.nil_append, le32_cons4]
  omega

theorem length_le32enc (n : Nat) : (le32enc n).length = 4 := rfl

theorem encodePayload_nil : encodePayload [] = [] := rfl

theorem encodePayload_cons (a : Bytes) (tl : List Bytes) :
    encodePayload (a :: tl) = le32enc a.length ++ a ++ encodePayload tl := by
  simp [encodePayload, encodeArg, List.append_assoc]

theorem arg_record_le (args : List Bytes) (a : Bytes) (ha : a ∈ args) :
    a.length + 4 ≤ (encodePayload args).length := by
  induction args with
  | nil => simp at ha
  | cons b tl ih =>
      rw [encodePayload_cons]
      simp only [List.length_append, length_le32enc]
      rcases List.mem_cons.mp ha with rfl | ha2
      · omega
      · have := ih ha2
        omega

theorem parseArgs_encode (args : List Bytes)
    (h : ∀ a ∈ args, a.length < 4294967296) :
    parseArgs (encodePayload args) = .ok args := by
  induction args with
  | nil => rw [encodePayload_nil, parseArgs]; rfl
  | cons a tl ih =>
      rw [encodePayload_cons, parseArgs]
      have hne : ¬ ((le32enc a.length ++ a ++ encodePayload tl).isEmpty = true) := by
        simp [le32enc]
      rw [if_neg hne]
      have hlen4 : ¬ ((le32enc a.length ++ a ++ encodePayload tl).length < 4) := by
        simp only [List.length_append, length_le32enc]
        omega
      rw [if_neg hlen4]
      have hle : le32 (le32enc a.length ++ a ++ encodePayload tl) = a.length := by
        rw [List.append_assoc]
        exact le32_le32enc a.length (h a (List.mem_cons_self a tl)) _
      have hdrop : (le32enc a.length ++ a ++ encodePayload tl).drop 4 =
          a ++ encodePayload tl := by
        rw [List.append_assoc, List.drop_append_of_le_length (by rw [length_le32enc])]
        simp [le32enc]
      rw [hle, hdrop]
      have hbound : ¬ (a.length > (a ++ encodePayload tl).length) := by
        simp only [List.length_append]
        omega
      rw [if_neg hbound]
      rw [List.take_left, List.drop_left]
      rw [ih (fun b hb => h b (List.mem_cons_of_mem a hb))]

theorem parseArgs_sound (n : Nat) : ∀ (rest : Bytes), rest.length ≤ n →
    (∀ b ∈ rest, b < 256) → ∀ args, parseArgs rest = .ok args →
    rest = encodePayload args := by
  induction n with
  | zero =>
      intro rest hlen hb args hp
      have hre : rest = [] := List.eq_nil_of_length_eq_zero (by omega)
      subst hre
      rw [parseArgs] at hp
      simp only [List.isEmpty_nil, if_pos, Except.ok.injEq, reduceIte] at hp
      subst hp
      rfl
  | succ n ih =>
      intro rest hlen hb args hp
      rw [parseArgs] at hp
      by_cases he : rest.isEmpty
      · rw [if_pos he] at hp
        simp only [Except.ok.injEq] at hp
        subst hp
        rw [List.isEmpty_iff.mp he]
        rfl
      · rw [if_neg he] at hp
        by_cases h4 : rest.length < 4
        · rw [if_pos h4] at hp; simp at hp
        · rw [if_neg h4] at hp
          by_cases hov : le32 rest > (rest.drop 4).length
          · rw [if_pos hov] at hp; simp at hp
          · rw [if_neg hov] at hp
            cases hrec : parseArgs ((rest.drop 4).drop (le32 rest)) with
            | error e => rw [hrec] at hp; simp at hp
            | ok args2 =>
                rw [hrec] at hp
                simp only [Except.ok.injEq] at hp
                subst hp
                rcases rest with _ | ⟨b0, rest1⟩
                · simp at he
                rcases rest1 with _ | ⟨b1, rest2⟩
                · simp at h4
                rcases rest2 with _ | ⟨b2, rest3⟩
                · simp at h4
                rcases rest3 with _ | ⟨b3, rest4⟩
                · simp at h4
                have hb0 : b0 < 256 := hb b0 (by simp)
                have hb1 : b1 < 256 := hb b1 (by simp)
                have hb2 : b2 < 256 := hb b2 (by simp)
                have hb3 : b3 < 256 := hb b3 (by simp)
                have hdrop : (b0 :: b1 :: b2 :: b3 :: rest4).drop 4 = rest4 := rfl
                rw [hdrop] at hrec hov ⊢
                set sl := le32 (b0 :: b1 :: b2 :: b3 :: rest4) with hsl
                have hrest4 : rest4 = rest4.take sl ++ rest4.drop sl :=
                  (List.take_append_drop sl rest4).symm
                have hlen2 : (rest4.drop sl).length ≤ n := by
                  simp only [List.length_drop]
                  simp only [List.length_cons] at hlen
                  omega
                have hbytes2 : ∀ b ∈ rest4.drop sl, b < 256 :=
                  fun b hbm => hb b
                    (List.mem_cons_of_mem _ (List.mem_cons_of_mem _
                      (List.mem_cons_of_mem _ (List.mem_cons_of_mem _
                        (List.mem_of_mem_drop hbm)))))
                have hrec2 := ih (rest4.drop sl) hlen2 hbytes2 args2 hrec
                rw [encodePayload_cons]
                have htl : (rest4.take sl).length = sl := by
                  rw [List.length_take]
                  omega
                rw [htl]
                have henc : le32enc sl = [b0, b1, b2, b3] :=
                  le32enc_eq_of b0 b1 b2 b3 sl hb0 hb1 hb2 hb3 (by rw [hsl, le32_cons4])
                rw [henc, ← hrec2]
                simp only [List.cons_append, List.nil_append, List.cons.injEq,
                  true_and]
                exact hrest4

end Wire
namespace Wire

theorem parseReq_encode (args : List Bytes) (trailing : Bytes)
    (hlen : (encodePayload args).length ≤ 4096) :
    parseReq (le32enc (encodePayload args).length ++
      (encodePayload args ++ trailing)) = .ok args := by
  have hlt : (encodePayload args).length < 4294967296 := by omega
  rw [parseReq]
  have hlen4 : ¬ ((le32enc (encodePayload args).length ++
      (encodePayload args ++ trailing)).length < 4) := by
    simp only [List.length_append, length_le32enc]
    omega
  rw [if_neg hlen4]
  rw [le32_le32enc _ hlt]
  rw [if_neg (by simp only [MAX_MSG_SIZE]; omega)]
  have hsz : ¬ (4 + (encodePayload args).length >
      (le32enc (encodePayload args).length ++
        (encodePayload args ++ trailing)).length) := by
    simp only [List.length_append, length_le32enc]
    omega
  rw [if_neg hsz]
  have hdrop : (le32enc (encodePayload args).length ++
      (encodePayload args ++ trailing)).drop 4 = encodePayload args ++ trailing := by
    rw [List.drop_append_of_le_length (by rw [length_le32enc])]
    simp [le32enc]
  rw [hdrop, List.take_left]
  exact parseArgs_encode args (fun a ha => by
    have := arg_record_le args a ha
    omega)

theorem parseReq_sound (data : Bytes) (args : List Bytes)
    (hb : ∀ b ∈ data, b < 256) (h : parseReq data = .ok args) :
    (data.drop 4).take (le32 data) = encodePayload args ∧
      le32 data ≤ 4096 ∧ 4 + le32 data ≤ data.length := by
  rw [parseReq] at h
  by_cases h4 : data.length < 4
  · rw [if_pos h4] at h; simp at h
  · rw [if_neg h4] at h
    by_cases hov : le32 data > MAX_MSG_SIZE
    · rw [if_pos hov] at h; simp at h
    · rw [if_neg hov] at h
      by_cases hsz : 4 + le32 data > data.length
      · rw [if_pos hsz] at h; simp at h
      · rw [if_neg hsz] at h
        refine ⟨?_, by simpa [MAX_MSG_SIZE] using hov, by omega⟩
        refine parseArgs_sound ((data.drop 4).take (le32 data)).length _ le_rfl ?_ args h
        exact fun b hbm => hb b (List.mem_of_mem_drop (List.mem_of_mem_take hbm))

end Wire

/-- Claim C1: the claim states that for every sorted-set key and every ZQUERY
with finite score `s`, name `n`, offset `k` and limit `m > 0`, the reply lists,
in (score, name) order, up to `m` (name, score) pairs starting `k` in-order
positions after the leftmost member with (score, name) ≥ (s, n).  The
`ZSet::query` that exists under `src/` (`src/src/zset.hpp`, also
`src/zset.hpp`) is `tree.exists(name) ? lookup(name) : nullptr`: on the
sorted set {("a", 1)} the query for bound (0, "") with offset 0 returns
nothing (the claimed window is [("a", 1)]), and the score and offset
arguments are ignored altogether (bound (999, "a") with offset 5 returns the
node named "a").  The spec-modelled window (`ZS.specQueryWindow`) yields the
claimed reply, pinning the divergence. -/
theorem C1_zquery_stub_eval :
    ZS.query (ZS.addInternal ZS.emptyZ ['a'] 1).2 0 [] 0 = none ∧
    ZS.query (ZS.addInternal ZS.emptyZ ['a'] 1).2 999 ['a'] 5 = some (['a'], 1) ∧
    ZS.specQueryWindow ((ZS.addInternal ZS.emptyZ ['a'] 1).2).hash 0 [] 0 10 =
      [(['a'], 1)] := by
  refine ⟨by decide, by decide, by decide⟩

/-- Claim C2 (counterexample): with an entry stored for key "k", the command
DEL k is answered with Error(UNKNOWN, "unknown command"), not with an
Integer reply — DEL is not recognized by the dispatcher. -/
theorem C2_del_unknown_counterexample :
    (Cmd.processCommand ["del", "k"]
        ⟨[], [("k", ⟨Cmd.EType.stringT, "v", none, none⟩)]⟩ 0).1 =
      [Cmd.RToken.errT Cmd.ERR_UNKNOWN "unknown command"] ∧
    [Cmd.RToken.errT Cmd.ERR_UNKNOWN "unknown command"] ≠ [Cmd.RToken.intT 1] ∧
    [Cmd.RToken.errT Cmd.ERR_UNKNOWN "unknown command"] ≠ [Cmd.RToken.intT 0] :=
  ⟨by decide, by decide, by decide⟩

/-- Claim C2 (amended): DEL is not in the dispatcher table
(`command_handlers` has only get/set/zadd/zquery/pexpire/pttl, and the
`src/server.cpp` table read off in `serverCommandVerbs` lists the same six
verbs): for every key and every state, DEL k is answered with
Error(UNKNOWN, "unknown command") and the state is unchanged. -/
theorem C2_del_not_dispatched (k : String) (st : Cmd.World) (now : Nat) :
    Cmd.processCommand ["del", k] st now =
      ([Cmd.RToken.errT Cmd.ERR_UNKNOWN "unknown command"], st) ∧
    "del" ∉ Cmd.serverCommandVerbs :=
  ⟨rfl, by decide⟩

/-- Claim C3: `EntryManager::add_to_heap` stores `heap.size() - 1` into the
entry's `heap_idx` after the push has already sifted the new item up (the
sift wrote the true position through the back-reference), so the
back-reference invariant breaks as soon as a pushed item does not stay in
the last slot: after adding "a" with expiry 100 and then "b" with expiry
50, item 0 is "b"'s but "b"'s `heap_idx` reads 1.  The invariant holds
after the first add. -/
theorem C3_add_to_heap_backref_eval :
    (let st1 := HeapM.addToHeap HeapM.mapOps ⟨[], [("a", none), ("b", none)]⟩ "a" 100
     let st2 := HeapM.addToHeap HeapM.mapOps st1 "b" 50
     HeapM.backRefOk HeapM.mapOps st1 = true ∧
     HeapM.backRefOk HeapM.mapOps st2 = false ∧
     st2.items = [⟨50, some "b"⟩, ⟨100, some "a"⟩] ∧
     HeapM.mapOps.getIdx st2.store "b" = some 1) := by
  refine ⟨by decide, by decide, by decide, by decide⟩

/-- Claim C4 (counterexample): insert keys 2, 1, 4, 3 (allocation ids
0, 1, 2, 3), then remove key 4.  `remove` splices node 3 up under node 0
without writing its `parent` field, which still holds the deleted node's
id 2 — the parent back-reference invariant fails after a remove. -/
theorem C4_remove_parent_counterexample :
    AVLP.childrenOk AVLP.runCounterexample = false ∧
    AVLP.runCounterexample =
      .node (.node .nil 1 1 1 1 1 (some 0) .nil) 0 2 2 2 3 none
        (.node .nil 3 3 3 1 1 (some 2) .nil) := by
  exact ⟨by decide, by decide⟩

/-- Claim C4 (amended): after every insert and every remove on a well-formed
ordered index, BST ordering, AVL balance and the stored depth and weight
caches (equal to the recomputed height and node count) are preserved; the
fourth invariant, parent back-reference consistency, is not preserved by
remove (see the counterexample). -/
theorem C4_avl_invariants :
    (∀ (K V : Type) [inst : LinearOrder K] (t : AVL.Tree K V) (k : K) (v : V),
        AVL.WF t → AVL.WF (AVL.insert t k v)) ∧
    (∀ (K V : Type) [inst : LinearOrder K] (t : AVL.Tree K V) (k : K),
        AVL.WF t → AVL.WF (AVL.remove t k)) :=
  ⟨fun _ _ _ t k v h => (AVL.insert_spec t k v h).1,
   fun _ _ _ t k h => (AVL.remove_spec t h k).1⟩

/-- Claim C4 witness: the theorem applied to the singleton tree {2}. -/
theorem C4_avl_invariants_witness :
    AVL.WF (AVL.insert (.node .nil 2 20 1 1 .nil : AVL.Tree Nat Nat) 1 10) ∧
    AVL.WF (AVL.remove (.node .nil 2 20 1 1 .nil : AVL.Tree Nat Nat) 2) :=
  ⟨C4_avl_invariants.1 Nat Nat (.node .nil 2 20 1 1 .nil) 1 10 (by decide),
   C4_avl_invariants.2 Nat Nat (.node .nil 2 20 1 1 .nil) 2 (by decide)⟩

/-- Claim C5 (counterexample): with key "k" present, PEXPIRE k -1 is
answered with Error(ARG, "Invalid TTL value") and the state is untouched —
not with Integer(1) after cancelling the expiry. -/
theorem C5_pexpire_negative_counterexample :
    Cmd.processCommand ["pexpire", "k", "-1"]
        ⟨[], [("k", ⟨Cmd.EType.stringT, "v", none, none⟩)]⟩ 0 =
      ([Cmd.RToken.errT Cmd.ERR_ARG "Invalid TTL value"],
        ⟨[], [("k", ⟨Cmd.EType.stringT, "v", none, none⟩)]⟩) ∧
    [Cmd.RToken.errT Cmd.ERR_ARG "Invalid TTL value"] ≠ [Cmd.RToken.intT 1] :=
  ⟨by decide, by decide⟩

/-- Claim C5 (amended): the dispatcher's validation
(`!parse_int(ttl) || ttl_ms < 0`) rejects PEXPIRE with any negative TTL
before any lookup: for every key (present or not) and every state, the
reply is Error(ARG, "Invalid TTL value") and the database, heap and
`ttl_slot` are unchanged; the cancellation path of `set_entry_ttl` is
unreachable from this handler. -/
theorem C5_pexpire_negative_rejected (k s : String) (ttl : Int)
    (st : Cmd.World) (now : Nat) (hparse : Cmd.parseIntSrc s = some ttl)
    (hneg : ttl < 0) :
    Cmd.processCommand ["pexpire", k, s] st now =
      ([Cmd.RToken.errT Cmd.ERR_ARG "Invalid TTL value"], st) := by
  show Cmd.handlePexpire ["pexpire", k, s] st now = _
  rw [Cmd.handlePexpire, if_neg (by simp)]
  have hg : ["pexpire", k, s].getD 2 "" = s := rfl
  rw [hg, hparse]
  dsimp only
  rw [if_pos hneg]

/-- Claim C5 witness: the amended theorem at the concrete run of the
counterexample's shape. -/
theorem C5_pexpire_negative_rejected_witness :
    Cmd.processCommand ["pexpire", "k", "-1"]
        ⟨[], [("k", ⟨Cmd.EType.stringT, "v", none, none⟩)]⟩ 7 =
      ([Cmd.RToken.errT Cmd.ERR_ARG "Invalid TTL value"],
        ⟨[], [("k", ⟨Cmd.EType.stringT, "v", none, none⟩)]⟩) :=
  C5_pexpire_negative_rejected "k" "-1" (-1)
    ⟨[], [("k", ⟨Cmd.EType.stringT, "v", none, none⟩)]⟩ 7 (by decide) (by decide)
/-- Claim C6 (counterexample): on a database holding the sorted set
{("a", 1)} at key "z", the dispatcher of `src/command_processor.hpp`
answers ZQUERY z 0 "" -1 10 (negative offset) and ZQUERY z 0 "" 0 0
(limit 0) with Error(ARG, "Invalid offset or limit") — the negative
offset is not accepted and limit ≤ 0 does not yield an empty array. -/
theorem C6_zquery_validation_counterexample :
    (Cmd.processCommand ["zquery", "z", "0", "", "-1", "10"]
        ⟨[], [("z", ⟨Cmd.EType.zsetT, "", some ZS.emptyZ, none⟩)]⟩ 0).1 =
      [Cmd.RToken.errT Cmd.ERR_ARG "Invalid offset or limit"] ∧
    (Cmd.processCommand ["zquery", "z", "0", "", "0", "0"]
        ⟨[], [("z", ⟨Cmd.EType.zsetT, "", some ZS.emptyZ, none⟩)]⟩ 0).1 =
      [Cmd.RToken.errT Cmd.ERR_ARG "Invalid offset or limit"] ∧
    [Cmd.RToken.errT Cmd.ERR_ARG "Invalid offset or limit"] ≠
      [Cmd.serializeArray 0] :=
  ⟨by decide, by decide, by decide⟩

/-- Claim C6 (amended): the dispatcher of `src/command_processor.hpp`
rejects every ZQUERY whose offset is negative or whose limit is ≤ 0 with
Error(ARG, "Invalid offset or limit") before any lookup, leaving the
state unchanged; the `handle_zquery` variant of `src/server.cpp` has no
sign validation and answers limit ≤ 0 on an existing sorted-set key with
the empty array. -/
theorem C6_zquery_validation (k sc nm so sl : String) (st : Cmd.World)
    (now : Nat) (sco off lim : Int)
    (hsc : Cmd.parseDoubleSrc sc = some sco)
    (ho : Cmd.parseIntSrc so = some off) (hl : Cmd.parseIntSrc sl = some lim)
    (hrej : off < 0 ∨ lim ≤ 0) :
    Cmd.processCommand ["zquery", k, sc, nm, so, sl] st now =
      ([Cmd.RToken.errT Cmd.ERR_ARG "Invalid offset or limit"], st) ∧
    (lim ≤ 0 →
      ∀ e, Cmd.lookupEntry st.store k = some e → e.etype = Cmd.EType.zsetT →
      Cmd.serverHandleZquery ["zquery", k, sc, nm, so, sl] st now =
        ([Cmd.serializeArray 0], st)) := by
  constructor
  · show Cmd.handleZquery ["zquery", k, sc, nm, so, sl] st now = _
    rw [Cmd.handleZquery, if_neg (by simp)]
    have h2 : ["zquery", k, sc, nm, so, sl].getD 2 "" = sc := rfl
    have h4 : ["zquery", k, sc, nm, so, sl].getD 4 "" = so := rfl
    have h5 : ["zquery", k, sc, nm, so, sl].getD 5 "" = sl := rfl
    rw [h2, hsc]
    dsimp only
    rw [h4, h5, ho, hl]
    dsimp only
    rw [if_pos hrej]
  · intro hlim e he het
    rw [Cmd.serverHandleZquery, if_neg (by simp)]
    have h2 : ["zquery", k, sc, nm, so, sl].getD 2 "" = sc := rfl
    have h4 : ["zquery", k, sc, nm, so, sl].getD 4 "" = so := rfl
    have h5 : ["zquery", k, sc, nm, so, sl].getD 5 "" = sl := rfl
    have h1 : ["zquery", k, sc, nm, so, sl].getD 1 "" = k := rfl
    rw [h2, hsc]
    dsimp only
    rw [h4, h5, ho, hl]
    dsimp only
    rw [h1, he]
    dsimp only
    rw [if_neg (by simp [het]), if_pos hlim]

/-- Claim C6 witness: the amended theorem at ZQUERY z 0 "" 5 0 on a
database holding an (empty) sorted set at key "z". -/
theorem C6_zquery_validation_witness :
    Cmd.processCommand ["zquery", "z", "0", "", "5", "0"]
        ⟨[], [("z", ⟨Cmd.EType.zsetT, "", some ZS.emptyZ, none⟩)]⟩ 0 =
      ([Cmd.RToken.errT Cmd.ERR_ARG "Invalid offset or limit"],
        ⟨[], [("z", ⟨Cmd.EType.zsetT, "", some ZS.emptyZ, none⟩)]⟩) ∧
    Cmd.serverHandleZquery ["zquery", "z", "0", "", "5", "0"]
        ⟨[], [("z", ⟨Cmd.EType.zsetT, "", some ZS.emptyZ, none⟩)]⟩ 0 =
      ([Cmd.serializeArray 0],
        ⟨[], [("z", ⟨Cmd.EType.zsetT, "", some ZS.emptyZ, none⟩)]⟩) :=
  have h := C6_zquery_validation "z" "0" "" "5" "0"
    ⟨[], [("z", ⟨Cmd.EType.zsetT, "", some ZS.emptyZ, none⟩)]⟩ 0 0 5 0
    (by decide) (by decide) (by decide) (Or.inr le_rfl)
  ⟨h.1, h.2 le_rfl ⟨Cmd.EType.zsetT, "", some ZS.emptyZ, none⟩ (by decide) rfl⟩

/-- Claim C7 (counterexample): the frame [4,0,0,0, 0,0,0,0] — total
length 4, payload [0,0,0,0].  Read as the claimed counted format the
payload says "zero arguments, nothing follows" (`decodeCountedPayload`
yields `some []`), but `RequestParser::parse` accepts it as ONE empty
argument: the parser reads no argument count, it treats the leading four
bytes of the payload as the first argument's length. -/
theorem C7_counted_format_counterexample :
    Wire.parseReq [4, 0, 0, 0, 0, 0, 0, 0] = .ok [[]] ∧
    Wire.decodeCountedPayload [0, 0, 0, 0] = some [] ∧
    ([[]] : List Wire.Bytes) ≠ [] := by
  refine ⟨?_, by decide, by decide⟩
  have h0 : Wire.parseArgs [] = .ok [] := by rw [Wire.parseArgs]; rfl
  have h1 : Wire.parseArgs [0, 0, 0, 0] = .ok [[]] := by
    rw [Wire.parseArgs]
    simp only [List.isEmpty_cons, List.length_cons, List.length_nil]
    rw [if_neg (by decide), if_neg (by decide)]
    rw [if_neg (by decide)]
    simp only [Wire.le32]
    norm_num
    rw [h0]
  rw [Wire.parseReq, if_neg (by decide)]
  dsimp only
  rw [if_neg (by decide), if_neg (by decide)]
  simpa [Wire.le32] using h1

/-- Claim C7 (amended): a well-formed request payload is the plain
concatenation of (4-byte little-endian length, that many bytes) records,
one per argument, with NO leading argument count; the parser accepts
exactly the payloads of this shape, yielding the arguments in order:
every encoded argument list is parsed back (completeness, first
conjunct), and every accepted frame's payload is exactly the record
encoding of the returned arguments (soundness, second conjunct). -/
theorem C7_record_format_exact :
    (∀ (args : List Wire.Bytes) (trailing : Wire.Bytes),
        (Wire.encodePayload args).length ≤ 4096 →
        Wire.parseReq (Wire.le32enc (Wire.encodePayload args).length ++
          (Wire.encodePayload args ++ trailing)) = .ok args) ∧
    (∀ (data : Wire.Bytes) (args : List Wire.Bytes),
        (∀ b ∈ data, b < 256) → Wire.parseReq data = .ok args →
        (data.drop 4).take (Wire.le32 data) = Wire.encodePayload args) :=
  ⟨fun args trailing h => Wire.parseReq_encode args trailing h,
   fun data args hb h => (Wire.parseReq_sound data args hb h).1⟩

/-- Claim C7 witness: the amended theorem on the single argument "a"
([97]): its frame parses back to it, and the accepted frame's payload is
its record encoding. -/
theorem C7_record_format_exact_witness :
    Wire.parseReq (Wire.le32enc (Wire.encodePayload [[97]]).length ++
      (Wire.encodePayload [[97]] ++ [])) = .ok [[97]] ∧
    ((Wire.le32enc (Wire.encodePayload [[97]]).length ++
        (Wire.encodePayload [[97]] ++ [])).drop 4).take
      (Wire.le32 (Wire.le32enc (Wire.encodePayload [[97]]).length ++
        (Wire.encodePayload [[97]] ++ []))) = Wire.encodePayload [[97]] :=
  have h1 := C7_record_format_exact.1 [[97]] [] (by decide)
  ⟨h1, C7_record_format_exact.2 _ [[97]] (by decide) h1⟩

/-- Claim C8: a frame whose declared payload length exceeds
`MAX_MSG_SIZE` (4096) makes `RequestParser::parse` fail with the
`message_size` protocol error, and `Connection::try_process_request` then
runs no command and moves the connection to the `End` state. -/
theorem C8_oversized_frame_terminates (conn : Conn.ConnSt)
    (world : Cmd.World) (now : Nat) (h4 : 4 ≤ conn.rbuf.length)
    (hov : Wire.MAX_MSG_SIZE < Wire.le32 conn.rbuf) :
    Wire.parseReq conn.rbuf = .error .messageSize ∧
    Conn.tryProcessRequest conn world now =
      ⟨false, { conn with state := .endS }, world, none⟩ := by
  have hp : Wire.parseReq conn.rbuf = .error .messageSize := by
    rw [Wire.parseReq, if_neg (not_lt.mpr h4)]
    dsimp only
    rw [if_pos hov]
  refine ⟨hp, ?_⟩
  rw [Conn.tryProcessRequest, if_neg (not_lt.mpr h4), hp]

/-- Claim C8 witness: the theorem on a connection whose read buffer
declares a 16777216-byte payload. -/
theorem C8_oversized_frame_terminates_witness :
    Wire.parseReq [0, 0, 0, 1] = .error .messageSize ∧
    Conn.tryProcessRequest ⟨.request, [0, 0, 0, 1], []⟩ ⟨[], []⟩ 0 =
      ⟨false, ⟨.endS, [0, 0, 0, 1], []⟩, ⟨[], []⟩, none⟩ :=
  C8_oversized_frame_terminates ⟨.request, [0, 0, 0, 1], []⟩ ⟨[], []⟩ 0
    (by decide) (by decide)

/-- Claim C9: at most one node per key.  (i) `AVLTree::insert` on a key
already present returns the tree unchanged; (ii) `AVLTree::set` on a
present key is exactly `update_node` — the value is replaced in place and
the key multiset is untouched; (iii) after any sequence of `set`/`del`
operations from the empty tree, every key occurs at most once (so a
`ZSet`, which only calls `tree.set`/`tree.del`, holds at most one tree
node per member name). -/
theorem C9_one_node_per_key :
    (∀ (K V : Type) [inst : LinearOrder K] (t : AVL.Tree K V) (k : K) (v : V),
        AVL.WF t → k ∈ AVL.keys t → AVL.insert t k v = t) ∧
    (∀ (K V : Type) [inst : LinearOrder K] (t : AVL.Tree K V) (k : K) (v : V),
        AVL.Ordered t → k ∈ AVL.keys t →
        AVL.set t k v = AVL.setValue t k v ∧
        AVL.keys (AVL.set t k v) = AVL.keys t) ∧
    (∀ (K V : Type) [inst : LinearOrder K] (ops : List (AVL.OpA K V)) (k : K),
        (AVL.keys (AVL.runOps ops)).count k ≤ 1) := by
  refine ⟨fun K V _ t k v hw hk => AVL.insert_dup t k v hw hk,
    fun K V _ t k v ho hk => ?_,
    fun K V _ ops k => AVL.ordered_count _ (AVL.wf_runOps ops).1 k⟩
  have hs : (AVL.search t k).isSome := (AVL.search_isSome_iff t k ho).mpr hk
  have hset : AVL.set t k v = AVL.setValue t k v := by
    rw [AVL.set]
    cases hsE : AVL.search t k with
    | none => rw [hsE] at hs; simp at hs
    | some p => rfl
  exact ⟨hset, by rw [hset, AVL.keys_setValue]⟩

/-- Claim C9 witness: the theorem on the singleton tree {1 ↦ 10} and on
the operation sequence set 1 10; set 1 20. -/
theorem C9_one_node_per_key_witness :
    AVL.insert (.node .nil 1 10 1 1 .nil : AVL.Tree Nat Nat) 1 99 =
      .node .nil 1 10 1 1 .nil ∧
    AVL.keys (AVL.set (.node .nil 1 10 1 1 .nil : AVL.Tree Nat Nat) 1 99) =
      AVL.keys (.node .nil 1 10 1 1 .nil : AVL.Tree Nat Nat) ∧
    (AVL.keys (AVL.runOps [AVL.OpA.setA 1 10, AVL.OpA.setA 1 20] :
        AVL.Tree Nat Nat)).count 1 ≤ 1 :=
  ⟨C9_one_node_per_key.1 Nat Nat (.node .nil 1 10 1 1 .nil) 1 99
      (by decide) (by decide),
   (C9_one_node_per_key.2.1 Nat Nat (.node .nil 1 10 1 1 .nil) 1 99
      (by decide) (by decide)).2,
   C9_one_node_per_key.2.2 Nat Nat [AVL.OpA.setA 1 10, AVL.OpA.setA 1 20] 1⟩

/-- Claim C10: `BinaryHeap::top` and `BinaryHeap::pop` on an empty heap
throw `std::out_of_range("Heap is empty")`, and `BinaryHeap::update(pos)`
with `pos ≥ size()` throws `std::out_of_range("Position out of range")`,
for every heap state and entry store; in each the check precedes every
write, so the throw leaves the heap's contents unchanged (the embedding
raises `Except.error` before any mutation, mirroring the source). -/
theorem C10_heap_bounds_errors {S : Type} (ops : HeapM.IdxOps S)
    (st : HeapM.St S) (pos : Nat) :
    (st.items = [] → HeapM.top st = .error "Heap is empty" ∧
      HeapM.pop ops st = .error "Heap is empty") ∧
    (st.items.length ≤ pos →
      HeapM.update ops st pos = .error "Position out of range") := by
  refine ⟨fun h => ⟨?_, ?_⟩, fun h => ?_⟩
  · rw [HeapM.top, if_pos (by simp [h])]
  · rw [HeapM.pop, if_pos (by simp [h])]
  · rw [HeapM.update, if_pos h]

/-- Claim C10 witness: the theorem on the empty heap (top, pop) and on a
one-element heap at position 1 (update). -/
theorem C10_heap_bounds_errors_witness :
    (HeapM.top (⟨[], []⟩ : HeapM.St (List (String × Option Nat))) =
        .error "Heap is empty" ∧
      HeapM.pop HeapM.mapOps (⟨[], []⟩ : HeapM.St (List (String × Option Nat))) =
        .error "Heap is empty") ∧
    HeapM.update HeapM.mapOps
        (⟨[⟨5, none⟩], []⟩ : HeapM.St (List (String × Option Nat))) 1 =
      .error "Position out of range" :=
  ⟨(C10_heap_bounds_errors HeapM.mapOps ⟨[], []⟩ 0).1 rfl,
   (C10_heap_bounds_errors HeapM.mapOps ⟨[⟨5, none⟩], []⟩ 1).2 (by decide)⟩
